import Mathlib

/-
Verification of the text-extraction and fuzzy-matching pipeline of
AnkordPars (src/AncorPars.py), a Streamlit app that audits whether
annotation fragments from a source document appear on live web pages.

Python strings are modelled as `List Char` (Python indexes `str` by code
point, as `List Char` does).  The pure core functions of the source are
translated one by one:

  * `clean_text_for_comparison`   (src lines 592-627)
  * `extract_annotation_fragment` (src lines 426-484)
  * `extract_ukrainian_annotation_fragment` (src lines 487-525)
  * `generate_ukrainian_url` / `generate_russian_url` (src lines 528-589)
  * `compare_texts`               (src lines 630-692)
  * `check_editors_on_page`       (src lines 160-183)
  * the link normalisation/filter stage of `extract_references_section`
    (src lines 353-385) and its content-collection stage (src lines 260-300)

External libraries used by the source (`rapidfuzz.fuzz.token_set_ratio`,
BeautifulSoup's tree walk, the network fetchers) are not code of this
repository; they enter the model as parameters (a scoring function, the
already-produced sibling/descendant element sequences, already-fetched
text), exactly at the points where the source calls them.

Python `None` / non-string arguments of the guarded functions are modelled
by `Option.none`; a present string is `some s`.
-/

/-- Code points of the characters Python's `str.split()` / `str.strip()` /
regex `\s` treat as whitespace. -/
def pySpaceCodes : List Nat :=
  [0x09, 0x0a, 0x0b, 0x0c, 0x0d, 0x1c, 0x1d, 0x1e, 0x1f, 0x20, 0x85, 0xa0,
   0x1680, 0x2000, 0x2001, 0x2002, 0x2003, 0x2004, 0x2005, 0x2006, 0x2007,
   0x2008, 0x2009, 0x200a, 0x2028, 0x2029, 0x202f, 0x205f, 0x3000]

/-- Python whitespace predicate (str.isspace / regex `\s`). -/
def pySpace (c : Char) : Bool := pySpaceCodes.contains c.toNat

/-- Abbreviation turning a string literal into the `List Char` model. -/
def toL (s : String) : List Char := s.toList

/-- Character-wise lower-casing covering the scripts the source handles:
ASCII letters and Cyrillic (`А`-`Я` -> `а`-`я`, `Ѐ`-`Џ` -> `ѐ`-`џ`, which
includes the Ukrainian `І`, `Ї`, `Є`, and `Ґ` -> `ґ`).  Python's
`str.lower()` and `re.IGNORECASE` agree with this map on every character
occurring in the source's patterns and the inputs considered here. -/
def lowerChar (c : Char) : Char :=
  if 0x41 ≤ c.toNat ∧ c.toNat ≤ 0x5a then Char.ofNat (c.toNat + 0x20)
  else if 0x410 ≤ c.toNat ∧ c.toNat ≤ 0x42f then Char.ofNat (c.toNat + 0x20)
  else if 0x400 ≤ c.toNat ∧ c.toNat ≤ 0x40f then Char.ofNat (c.toNat + 0x50)
  else if c.toNat = 0x490 then Char.ofNat 0x491
  else c

/-- `s.lower()` on the model. -/
def mapLower (s : List Char) : List Char := s.map lowerChar

/-- One pass of `re.sub(r'\s+', ' ', ·)`: every maximal whitespace run
becomes a single space.  The flag records whether the previous character
was part of a whitespace run whose space was already emitted. -/
def wsSubGo : Bool → List Char → List Char
  | _, [] => []
  | prevWs, c :: rest =>
    if pySpace c then
      if prevWs then wsSubGo true rest else ' ' :: wsSubGo true rest
    else c :: wsSubGo false rest

/-- `re.sub(r'\s+', ' ', s)`. -/
def wsSub (s : List Char) : List Char := wsSubGo false s

/-- `s.rstrip()` on the model. -/
def stripRight (s : List Char) : List Char := (s.reverse.dropWhile pySpace).reverse

/-- `s.strip()` on the model. -/
def stripWs (s : List Char) : List Char := stripRight (s.dropWhile pySpace)

/-- `re.sub(r'\s+', ' ', s).strip()`, the collapse-and-trim idiom the source
uses to normalise whitespace. -/
def collapseWs (s : List Char) : List Char := stripWs (wsSub s)

theorem dropWhile_len_le (p : Char → Bool) (l : List Char) :
    (l.dropWhile p).length ≤ l.length := by
  induction l with
  | nil => simp
  | cons x xs ih =>
      by_cases h : p x
      · simp only [List.dropWhile_cons, h, if_true, List.length_cons]
        omega
      · simp [List.dropWhile_cons, h]

/-- `s.split()` on the model: maximal whitespace-free runs, empty runs
dropped (Python `str.split()` with no argument). -/
def pyWords : List Char → List (List Char)
  | [] => []
  | c :: rest =>
    if pySpace c then pyWords rest
    else (c :: rest.takeWhile (fun d => !pySpace d)) ::
      pyWords (rest.dropWhile (fun d => !pySpace d))
termination_by s => s.length
decreasing_by
  · simp only [List.length_cons]; omega
  · simp only [List.length_cons]
    have := dropWhile_len_le (fun d => !pySpace d) rest
    omega

/-- `' '.join(ws)` on the model. -/
def spaceJoin : List (List Char) → List Char
  | [] => []
  | [w] => w
  | w :: ws => w ++ ' ' :: spaceJoin ws

/-- Substring test: does `pat` occur contiguously inside `s`?  This is
Python's `pat in s` (and `re.search` on an escaped literal). -/
def containsSub (pat : List Char) : List Char → Bool
  | [] => pat.isEmpty
  | c :: rest => pat.isPrefixOf (c :: rest) || containsSub pat rest

/- ------------------------------------------------------------------ -/
/- clean_text_for_comparison (src lines 592-627), step by step        -/
/- ------------------------------------------------------------------ -/

/-- `text.replace('\xa0', ' ')`. -/
def nbspFix (s : List Char) : List Char :=
  s.map (fun c => if c.toNat = 0xa0 then ' ' else c)

/-- `t.replace('\r\n', '\n').replace('\r', '\n')`. -/
def normNl : List Char → List Char
  | [] => []
  | '\r' :: '\n' :: rest => '\n' :: normNl rest
  | '\r' :: rest => '\n' :: normNl rest
  | c :: rest => c :: normNl rest

/-- `re.sub(r'<[^>]+>', ' ', ·)`: a `<`, at least one non-`>` character,
then `>`, replaced by a space; scanning is leftmost as in `re.sub`. -/
def removeTags : List Char → List Char
  | [] => []
  | c :: rest =>
    if h : c = '<' ∧ rest.takeWhile (fun d => d ≠ '>') ≠ [] ∧
        rest.dropWhile (fun d => d ≠ '>') ≠ [] then
      ' ' :: removeTags (rest.dropWhile (fun d => d ≠ '>')).tail
    else c :: removeTags rest
termination_by s => s.length
decreasing_by
  · have h1 := dropWhile_len_le (fun d => d ≠ '>') rest
    have h2 : (rest.dropWhile (fun d => d ≠ '>')).tail.length <
        (rest.dropWhile (fun d => d ≠ '>')).length := by
      rcases h with ⟨-, -, h3⟩
      cases hE : rest.dropWhile (fun d => d ≠ '>') with
      | nil => exact absurd hE h3
      | cons a as => simp
    simp only [List.length_cons]; omega
  · simp only [List.length_cons]; omega

/-- Searching for the closing two-character delimiter `d d` of the lazy
group in `(\*\*|__)(.*?)\1`: the earliest split `s = inner ++ [d, d] ++ r`
whose `inner` has no newline (regex `.` does not cross lines). -/
def findClose2 (d : Char) : List Char → Option (List Char × List Char)
  | [] => none
  | a :: rest =>
    if a = d ∧ rest.head? = some d then some ([], rest.tail)
    else if a = '\n' then none
    else (findClose2 d rest).map (fun p => (a :: p.1, p.2))

theorem findClose2_len (d : Char) (s : List Char) (i r : List Char)
    (h : findClose2 d s = some (i, r)) : i.length + 2 + r.length = s.length := by
  induction s generalizing i r with
  | nil => simp [findClose2] at h
  | cons a rest ih =>
      by_cases hd : a = d ∧ rest.head? = some d
      · rw [findClose2, if_pos hd] at h
        cases h
        cases rest with
        | nil => simp at hd
        | cons b bs =>
            simp only [List.tail_cons, List.length_nil, List.length_cons]
            omega
      · by_cases hn : a = '\n'
        · rw [findClose2, if_neg hd, if_pos hn] at h
          simp at h
        · simp only [findClose2, if_neg hd, if_neg hn, Option.map_eq_some'] at h
          obtain ⟨⟨i', r'⟩, hfc, hpair⟩ := h
          cases hpair
          have := ih _ _ hfc
          simp only [List.length_cons]
          omega

/-- `re.sub(r'(\*\*|__)(.*?)\1', r'\2', ·)`: a `**` or `__` opener whose
closer occurs later on the same line loses its delimiters; with no closer
the scan advances one character, as the regex engine does. -/
def boldSub : List Char → List Char
  | [] => []
  | a :: rest =>
    if (a = '*' ∧ rest.head? = some '*') ∨ (a = '_' ∧ rest.head? = some '_') then
      match h2 : findClose2 a rest.tail with
      | some (inner, r) => inner ++ boldSub r
      | none => a :: boldSub rest
    else a :: boldSub rest
termination_by s => s.length
decreasing_by
  · have hlen := findClose2_len _ _ _ _ h2
    have ht : rest.tail.length ≤ rest.length := by cases rest <;> simp
    simp only [List.length_cons]; omega
  · simp only [List.length_cons]; omega
  · simp only [List.length_cons]; omega

/-- `re.sub(r'(?<!\*)\*(?!\*)', ' ', ·)`: a `*` neither preceded nor
followed by `*` (look-arounds read the original text) becomes a space.
`prev` is the previous character of the input. -/
def starSub : Option Char → List Char → List Char
  | _, [] => []
  | prev, c :: rest =>
    if c = '*' ∧ prev ≠ some '*' ∧ rest.head? ≠ some '*' then
      ' ' :: starSub (some '*') rest
    else c :: starSub (some c) rest

/-- Searching for the closing one-character delimiter of a lazy group:
the earliest split `s = inner ++ [d] ++ r` whose `inner` has no newline. -/
def findClose1 (d : Char) : List Char → Option (List Char × List Char)
  | [] => none
  | a :: rest =>
    if a = d then some ([], rest)
    else if a = '\n' then none
    else (findClose1 d rest).map (fun p => (a :: p.1, p.2))

theorem findClose1_len (d : Char) (s : List Char) (i r : List Char)
    (h : findClose1 d s = some (i, r)) : i.length + 1 + r.length = s.length := by
  induction s generalizing i r with
  | nil => simp [findClose1] at h
  | cons a rest ih =>
      by_cases hd : a = d
      · rw [findClose1, if_pos hd] at h
        cases h
        simp only [List.length_nil, List.length_cons]
        omega
      · by_cases hn : a = '\n'
        · rw [findClose1, if_neg hd, if_pos hn] at h
          simp at h
        · simp only [findClose1, if_neg hd, if_neg hn, Option.map_eq_some'] at h
          obtain ⟨⟨i', r'⟩, hfc, hpair⟩ := h
          cases hpair
          have := ih _ _ hfc
          simp only [List.length_cons]
          omega

/-- `re.sub(r'_(.*?)_', r'\1', ·)`: paired single underscores on one line
lose their delimiters. -/
def underscoreSub : List Char → List Char
  | [] => []
  | a :: rest =>
    if a = '_' then
      match h2 : findClose1 '_' rest with
      | some (inner, r) => inner ++ underscoreSub r
      | none => a :: underscoreSub rest
    else a :: underscoreSub rest
termination_by s => s.length
decreasing_by
  · have := findClose1_len _ _ _ _ h2
    simp only [List.length_cons]; omega
  · simp only [List.length_cons]; omega
  · simp only [List.length_cons]; omega

/-- Match of `(?m)^\s{0,3}#+\s*` at a line start: at most three whitespace
characters, then at least one `#`, then greedy trailing whitespace.
Returns whether the scan resumes at a line start (the last consumed
character was a newline) and the rest of the input; `none` when the
pattern does not match here. -/
def headMatch (s : List Char) : Option (Bool × List Char) :=
  let afterWs := s.dropWhile pySpace
  if (s.takeWhile pySpace).length ≤ 3 ∧ afterWs.head? = some '#' then
    let afterH := afterWs.dropWhile (fun d => d = '#')
    some ((afterH.takeWhile pySpace).getLast? == some '\n', afterH.dropWhile pySpace)
  else none

theorem headMatch_len (s : List Char) (b : Bool) (r : List Char)
    (h : headMatch s = some (b, r)) : r.length < s.length := by
  unfold headMatch at h
  by_cases hc : (s.takeWhile pySpace).length ≤ 3 ∧
      (s.dropWhile pySpace).head? = some '#'
  · simp only [if_pos hc] at h
    cases h
    obtain ⟨-, hh⟩ := hc
    have h1 := dropWhile_len_le pySpace s
    cases hE : s.dropWhile pySpace with
    | nil => rw [hE] at hh; simp at hh
    | cons x xs =>
        rw [hE] at hh h1
        simp only [List.head?_cons, Option.some.injEq] at hh
        rw [List.dropWhile_cons, if_pos (by simp [hh])]
        have h2 := dropWhile_len_le (fun d => d = '#') xs
        have h3 := dropWhile_len_le pySpace (xs.dropWhile (fun d => d = '#'))
        simp only [List.length_cons] at h1
        omega
  · simp [if_neg hc] at h

/-- `re.sub(r'(?m)^\s{0,3}#+\s*', ' ', ·)`: markdown heading markers at a
line start become a space.  The flag says whether the current position is
a line start (string start, or just after a newline). -/
def headingSub : Bool → List Char → List Char
  | _, [] => []
  | atLS, c :: rest =>
    if atLS then
      match h2 : headMatch (c :: rest) with
      | some (b, r) => ' ' :: headingSub b r
      | none => c :: headingSub (c = '\n') rest
    else c :: headingSub (c = '\n') rest
termination_by _ s => s.length
decreasing_by
  · exact headMatch_len _ _ _ h2
  · simp only [List.length_cons]; omega
  · simp only [List.length_cons]; omega

/-- `re.sub(r'\[\^?.*?\]', ' ', ·)`: a bracketed footnote marker (whose
content stays on one line, regex `.` does not cross lines) becomes a
space. -/
def footnoteSub : List Char → List Char
  | [] => []
  | a :: rest =>
    if a = '[' then
      match h2 : findClose1 ']' rest with
      | some (inner, r) => ' ' :: footnoteSub r
      | none => a :: footnoteSub rest
    else a :: footnoteSub rest
termination_by s => s.length
decreasing_by
  · have := findClose1_len _ _ _ _ h2
    simp only [List.length_cons]; omega
  · simp only [List.length_cons]; omega
  · simp only [List.length_cons]; omega

/-- The dash characters of `re.sub(r'[\-—]{2,}', ' ', ·)`. -/
def isDash (c : Char) : Bool := c = '-' ∨ c = '—'

/-- `re.sub(r'[\-—]{2,}', ' ', ·)`: a maximal run of two or more
dash/em-dash characters becomes a single space. -/
def dashSub : List Char → List Char
  | [] => []
  | c :: rest =>
    if isDash c ∧ rest.takeWhile isDash ≠ [] then
      ' ' :: dashSub (rest.dropWhile isDash)
    else c :: dashSub rest
termination_by s => s.length
decreasing_by
  · have := dropWhile_len_le isDash rest
    simp only [List.length_cons]; omega
  · simp only [List.length_cons]; omega

/-- `re.sub(r'\.\.{2,}', ' ', ·)`: a maximal run of three or more dots
becomes a single space (runs of one or two dots survive). -/
def dotSub : List Char → List Char
  | [] => []
  | c :: rest =>
    if c = '.' ∧ 2 ≤ (rest.takeWhile (fun d => d = '.')).length then
      ' ' :: dotSub (rest.dropWhile (fun d => d = '.'))
    else c :: dotSub rest
termination_by s => s.length
decreasing_by
  · have := dropWhile_len_le (fun d => d = '.') rest
    simp only [List.length_cons]; omega
  · simp only [List.length_cons]; omega

/-- Two adjacent characters satisfying `p` occur in the list (the texts on
which `re.sub(r'[\-\u2014]{2,}', ' ', ·)` can fire have such a dash pair). -/
def hasRun2 (p : Char → Bool) : List Char → Bool
  | a :: b :: t => (p a && p b) || hasRun2 p (b :: t)
  | _ => false

/-- Three adjacent characters satisfying `p` occur in the list (the texts on
which `re.sub(r'\.\.{2,}', ' ', ·)` can fire have such a dot triple). -/
def hasRun3 (p : Char → Bool) : List Char → Bool
  | a :: b :: c :: t => (p a && p b && p c) || hasRun3 p (b :: c :: t)
  | _ => false

/-- `clean_text_for_comparison` (src lines 592-627) on a present string:
the source's twelve cleaning steps in order. -/
def cleanCore (text : List Char) : List Char :=
  let t1 := normNl (nbspFix text)
  let t2 := removeTags t1
  let t3 := boldSub t2
  let t4 := starSub none t3
  let t5 := underscoreSub t4
  let t6 := headingSub true t5
  let t7 := footnoteSub t6
  let t8 := dashSub t7
  let t9 := dotSub t8
  let t10 := t9.map (fun c => if c = '*' ∨ c = '_' then ' ' else c)
  collapseWs t10

/-- `clean_text_for_comparison` with its input guard (src lines 596-597):
`None`, a non-string, or the empty string give `""`. -/
def clean_text_for_comparison : Option (List Char) → List Char
  | none => []
  | some s => if s = [] then [] else cleanCore s

/- ------------------------------------------------------------------ -/
/- extract_annotation_fragment (src lines 426-484) and                -/
/- extract_ukrainian_annotation_fragment (src lines 487-525)          -/
/- ------------------------------------------------------------------ -/

/-- Whitespace normalisation both extractors apply before searching
(src lines 434-435 and 495-496): non-breaking spaces to spaces, then
`re.sub(r'\s+', ' ', ·)`. -/
def wsNormalize (s : List Char) : List Char := wsSub (nbspFix s)

/-- Case-insensitive literal match of `pat` (given lower-cased) at
position `i` of `t`; `re.IGNORECASE` on the source's Cyrillic/ASCII
patterns is simple character folding. -/
def matchCI (pat : List Char) (t : List Char) (i : Nat) : Bool :=
  mapLower ((t.drop i).take pat.length) == pat

/-- A start marker `Аннотация|Аннотація` (src line 439) matches at `i`. -/
def annStartAt (t : List Char) (i : Nat) : Bool :=
  matchCI (toL "аннотация") t i || matchCI (toL "аннотація") t i

/-- The exclusion look-back (src lines 455-457): the 20 characters before
position `i`, lower-cased, contain `перевод` or `переклад`. -/
def excludedAt (t : List Char) (i : Nat) : Bool :=
  containsSub (toL "перевод") (mapLower ((t.take i).drop (i - 20))) ||
  containsSub (toL "переклад") (mapLower ((t.take i).drop (i - 20)))

/-- First `i < n` with `p i`, scanning upward; `none` when there is none.
Mirrors iterating `re.finditer` matches in position order and keeping the
first one that passes a filter. -/
def findFirstBelow (p : Nat → Bool) : Nat → Option Nat
  | 0 => none
  | n + 1 =>
    match findFirstBelow p n with
    | some i => some i
    | none => if p n then some n else none

/-- The selected start match of `extract_annotation_fragment`
(src lines 449-459): the first position where a start marker matches and
the look-back exclusion does not fire.  (Marker occurrences cannot
overlap and the trailing `\s*[:\-–—]*` of the compiled pattern never
covers a following marker's first letter, so `re.finditer` yields every
match position in order.) -/
def chosenStart (t : List Char) : Option Nat :=
  findFirstBelow (fun i => annStartAt t i && !excludedAt t i) t.length

/-- The optional separator tail `\s*[:\-–—]*` of the marker patterns. -/
def markPunct (c : Char) : Bool := c = ':' ∨ c = '-' ∨ c = '–' ∨ c = '—'

/-- End position of a marker match that started at a position whose
literal part ends at `j`: greedy `\s*` then greedy `[:\-–—]*`. -/
def tailEnd (t : List Char) (j : Nat) : Nat :=
  let j2 := j + ((t.drop j).takeWhile pySpace).length
  j2 + ((t.drop j2).takeWhile markPunct).length

/-- A primary end marker `Анкор|Anchor|Анкoр` (src line 441; the third
alternative spells the word with a Latin `o`) matches at `i`. -/
def endPrimAt (t : List Char) (i : Nat) : Bool :=
  matchCI (toL "анкор") t i || matchCI (toL "anchor") t i ||
  matchCI (toL "анкoр") t i

/-- The four `Перевод аннотации` spelling variants (src lines 442 and
499), lower-cased; they serve as the secondary end-marker set of the
primary extractor and as the start-marker set of the secondary one.  At
any one position at most one variant matches (they differ within their
common length), so `re`'s first-alternative rule needs no extra care. -/
def uaPats : List (List Char) :=
  [toL "перевод аннотации", toL "переклад аннотації",
   toL "перевод аннотації", toL "переклад аннотации"]

/-- Some variant of `Перевод аннотации` matches at `i`. -/
def uaStartAt (t : List Char) (i : Nat) : Bool :=
  uaPats.any (fun p => matchCI p t i)

/-- First match position in `[lo, n)`, mirroring `re.search(..., pos=lo)`. -/
def findFrom (p : Nat → Bool) (lo n : Nat) : Option Nat :=
  (findFirstBelow (fun k => p (lo + k)) (n - lo)).map (lo + ·)

/-- `extract_annotation_fragment` (src lines 426-484).  A start marker is
nine characters in either spelling; after its separator tail the fragment
runs to the first primary end marker, else to the first secondary end
marker, else to the end of the text; with no start marker the whole
normalised text is returned.  The result is stripped. -/
def extract_annotation_fragment : Option (List Char) → List Char
  | none => []
  | some text =>
    if text = [] then []
    else
      let t := wsNormalize text
      match chosenStart t with
      | none => stripWs t
      | some i =>
        let sp := tailEnd t (i + 9)
        let e? := match findFrom (fun k => endPrimAt t k) sp t.length with
          | some e => some e
          | none => findFrom (fun k => uaStartAt t k) sp t.length
        match e? with
        | some e => stripWs ((t.take e).drop sp)
        | none => stripWs (t.drop sp)

/-- Length of the `Перевод аннотации` variant matching at `i`, mirroring
which alternative of the compiled pattern matched (at most one can). -/
def uaMatchLen (t : List Char) (i : Nat) : Option Nat :=
  (uaPats.find? (fun p => matchCI p t i)).map List.length

/-- The marker characters of `re.sub(r'[\*_#]{1,}', ' ', ·)`. -/
def isStarMark (c : Char) : Bool := c = '*' ∨ c = '_' ∨ c = '#'

/-- `re.sub(r'[\*_#]{1,}', ' ', ·)`: each maximal run of `*`, `_`, `#`
becomes a single space (src line 522). -/
def starHashSub : List Char → List Char
  | [] => []
  | c :: rest =>
    if isStarMark c then ' ' :: starHashSub (rest.dropWhile isStarMark)
    else c :: starHashSub rest
termination_by s => s.length
decreasing_by
  · have := dropWhile_len_le isStarMark rest
    simp only [List.length_cons]; omega
  · simp only [List.length_cons]; omega

/-- `extract_ukrainian_annotation_fragment` (src lines 487-525): first
`Перевод аннотации` variant, fragment to the first `Анкор` variant or the
end of text, then emphasis-marker runs collapsed and whitespace
normalised.  With no start marker the result is empty. -/
def extract_ukrainian_annotation_fragment : Option (List Char) → List Char
  | none => []
  | some text =>
    if text = [] then []
    else
      let t := wsNormalize text
      match findFirstBelow (fun i => uaStartAt t i) t.length with
      | none => []
      | some i =>
        match uaMatchLen t i with
        | none => []          -- unreachable: some variant matched at `i`
        | some len =>
          let sp := tailEnd t (i + len)
          let frag := match findFrom (fun k => endPrimAt t k) sp t.length with
            | some e => (t.take e).drop sp
            | none => t.drop sp
          collapseWs (starHashSub frag)

/- ------------------------------------------------------------------ -/
/- urllib.parse as the source uses it, and the locale URL mappers     -/
/- generate_ukrainian_url / generate_russian_url (src lines 528-589)  -/
/- ------------------------------------------------------------------ -/

/-- The six components of `urllib.parse.urlparse`. -/
structure UrlParts where
  scheme : List Char
  netloc : List Char
  path : List Char
  params : List Char
  query : List Char
  frag : List Char
deriving DecidableEq

/-- `urllib.parse`'s `scheme_chars`. -/
def schemeChar (c : Char) : Bool :=
  c.isAlpha || c.isDigit || c = '+' || c = '-' || c = '.'

/-- Index of the first occurrence of `c` in `s` (Python `s.find(c)`,
`none` for `-1`). -/
def idxOf : Char → List Char → Option Nat
  | _, [] => none
  | c, x :: xs => if x = c then some 0 else (idxOf c xs).map (· + 1)

/-- The scheme split of CPython 3.11 `urlsplit`: the text before the
first `:` becomes the (lower-cased) scheme when it is non-empty, starts
with an ASCII letter and consists of scheme characters. -/
def splitScheme (url : List Char) : List Char × List Char :=
  match idxOf ':' url with
  | none => ([], url)
  | some i =>
    if 0 < i ∧ ((url.take i).headD ' ').isAlpha ∧ (url.take i).all schemeChar
    then (mapLower (url.take i), url.drop (i + 1))
    else ([], url)

/-- A character that does not end the netloc (`_splitnetloc` stops at
`/`, `?` or `#`). -/
def netChar (c : Char) : Bool := c ≠ '/' ∧ c ≠ '?' ∧ c ≠ '#'

/-- The netloc split of `urlsplit`: after a leading `//`, the netloc runs
to the first `/`, `?` or `#`.  CPython raises for mismatched `[`/`]` and
validates a bracketed (IPv6) host; bracketed hosts are not modelled, so
any bracket is treated as the exceptional outcome `none` (the source
catches the exception). -/
def splitNetloc : List Char → Option (List Char × List Char)
  | '/' :: '/' :: rest =>
    let nl := rest.takeWhile netChar
    if '[' ∈ nl ∨ ']' ∈ nl then none
    else some (nl, rest.dropWhile netChar)
  | url => some ([], url)

/-- `url.split(c, 1)` when `c` occurs, `(url, '')` otherwise — the shape
`urlsplit` uses for the `#` and `?` splits. -/
def splitAtChar (c : Char) (url : List Char) : List Char × List Char :=
  match idxOf c url with
  | none => (url, [])
  | some i => (url.take i, url.drop (i + 1))

/-- CPython 3.11 `urlsplit` with `allow_fragments=True`: WHATWG control
stripping, scheme, netloc (with the bracket check), fragment, query.
`_checknetloc` returns immediately for an ASCII netloc and can raise for
a non-ASCII one (NFKC validation); it is not modelled, so the model is
faithful only on ASCII netlocs, and every round-trip theorem below
assumes an ASCII netloc.  Likewise CPython accepts a well-formed
bracketed IPv6 host where `splitNetloc` gives `none`; the theorems assume
bracket-free netlocs. -/
def urlsplitM (url0 : List Char) : Option UrlParts :=
  let u1 := url0.dropWhile (fun c => c.toNat ≤ 0x20)
  let u2 := u1.filter (fun c => c ≠ '\t' ∧ c ≠ '\r' ∧ c ≠ '\n')
  let su := splitScheme u2
  match splitNetloc su.2 with
  | none => none
  | some (nl, u3) =>
    let sf := splitAtChar '#' u3
    let sq := splitAtChar '?' sf.1
    some ⟨su.1, nl, sq.1, [], sq.2, sf.2⟩

/-- The schemes of `urllib.parse.uses_params`. -/
def usesParamsSchemes : List (List Char) :=
  [toL "", toL "ftp", toL "hdl", toL "prospero", toL "http", toL "imap",
   toL "https", toL "shttp", toL "rtsp", toL "rtspu", toL "sip",
   toL "sips", toL "mms", toL "sftp", toL "tel"]

/-- Index of the last occurrence of `c` in `s` (Python `s.rfind(c)`). -/
def lastIdxOf (c : Char) (s : List Char) : Option Nat :=
  (idxOf c s.reverse).map (fun i => s.length - 1 - i)

/-- `urllib.parse._splitparams`, reached only when `;` occurs in the
path: the parameters of the last path segment split off at its first
`;`. -/
def splitParams (url : List Char) : List Char × List Char :=
  if '/' ∈ url then
    match lastIdxOf '/' url with
    | some r =>
      match idxOf ';' (url.drop r) with
      | some k => (url.take (r + k), url.drop (r + k + 1))
      | none => (url, [])
    | none => (url, [])
  else splitAtChar ';' url

/-- CPython 3.11 `urlparse`: `urlsplit`, then parameter splitting for the
schemes that use parameters. -/
def urlparseM (url0 : List Char) : Option UrlParts :=
  (urlsplitM url0).map (fun p =>
    if p.scheme ∈ usesParamsSchemes ∧ ';' ∈ p.path then
      { p with path := (splitParams p.path).1, params := (splitParams p.path).2 }
    else p)

/-- `urllib.parse.urlunsplit`. -/
def urlunsplitM (scheme netloc url query frag : List Char) : List Char :=
  let url1 := if netloc ≠ [] ∨ (toL "//").isPrefixOf url then
      toL "//" ++ netloc ++ (if url ≠ [] ∧ url.head? ≠ some '/' then '/' :: url else url)
    else url
  let url2 := if scheme ≠ [] then scheme ++ ':' :: url1 else url1
  let url3 := if query ≠ [] then url2 ++ '?' :: query else url2
  if frag ≠ [] then url3 ++ '#' :: frag else url3

/-- `urllib.parse.urlunparse`. -/
def urlunparseM (p : UrlParts) : List Char :=
  urlunsplitM p.scheme p.netloc
    (if p.params ≠ [] then p.path ++ ';' :: p.params else p.path) p.query p.frag

/-- `generate_ukrainian_url` (src lines 528-559): a path already
containing `/ua/` is returned unchanged; otherwise `/ua` is inserted
before the path and the URL is rebuilt with an f-string from scheme,
netloc, new path, query and fragment (parameters are dropped). -/
def generate_ukrainian_url : Option (List Char) → List Char
  | none => []
  | some u =>
    if u = [] then []
    else
      match urlparseM u with
      | none => []
      | some p =>
        if containsSub (toL "/ua/") p.path then u
        else
          let newPath := if p.path.head? = some '/' then toL "/ua" ++ p.path
            else toL "/ua/" ++ p.path
          p.scheme ++ toL "://" ++ p.netloc ++ newPath ++
            (if p.query ≠ [] then '?' :: p.query else []) ++
            (if p.frag ≠ [] then '#' :: p.frag else [])

/-- `generate_russian_url` (src lines 562-589): a path starting with
`/ua/` loses its first three characters, a path equal to `/ua` becomes
`/`, and the URL is rebuilt with `urlunparse`. -/
def generate_russian_url : Option (List Char) → List Char
  | none => []
  | some u =>
    if u = [] then []
    else
      match urlparseM u with
      | none => []
      | some p =>
        let newPath := if (toL "/ua/").isPrefixOf p.path then p.path.drop 3
          else if p.path = toL "/ua" then toL "/"
          else p.path
        urlunparseM { p with path := newPath }

/- ------------------------------------------------------------------ -/
/- extract_references_section: link normalisation/filter stage        -/
/- (src lines 353-385)                                                -/
/- ------------------------------------------------------------------ -/

/-- Lexicographic comparison of strings by code point — Python's `<=` on
`str`, which `sorted` uses. -/
def lexLe : List Char → List Char → Bool
  | [], _ => true
  | _ :: _, [] => false
  | a :: as, b :: bs => if a < b then true else if b < a then false else lexLe as bs

/-- Ordered insertion for `sortLex`. -/
def insertLex (x : List Char) : List (List Char) → List (List Char)
  | [] => [x]
  | y :: ys => if lexLe x y then x :: y :: ys else y :: insertLex x ys

/-- `sorted(·)` on a list of strings.  (Python's sort is a different
algorithm, but on the duplicate-free collections built below the sorted
permutation is unique, so any correct sort gives the same list.) -/
def sortLex : List (List Char) → List (List Char)
  | [] => []
  | x :: xs => insertLex x (sortLex xs)

/-- The page domain `extract_references_section` computes (src lines
205-210): the lower-cased netloc of the page URL, empty when parsing
fails (the `except` branch leaves it `None`, which the later truthiness
test treats like the empty string). -/
def pageDomainOf (page_url : List Char) : List Char :=
  match urlparseM page_url with
  | some p => mapLower p.netloc
  | none => []

/-- One iteration of the filter loop (src lines 356-380) over the
accumulated set: parse the link (an exception skips it), drop empty
domains, drop the page's own domain and its subdomains, strip a leading
`www.`, and keep `https://` + domain.  The Python `set` is modelled as a
duplicate-free list. -/
def refFilterStep (page_domain : List Char) (acc : List (List Char))
    (link : List Char) : List (List Char) :=
  match urlparseM link with
  | none => acc
  | some lp =>
    let d := mapLower lp.netloc
    if d = [] then acc
    else if page_domain ≠ [] ∧
        (d = page_domain ∨ ('.' :: page_domain).isSuffixOf d) then acc
    else
      let d2 := if (toL "www.").isPrefixOf d then d.drop 4 else d
      let nl := toL "https://" ++ d2
      if nl ∈ acc then acc else acc ++ [nl]

/-- The normalisation/filter/sort stage of `extract_references_section`
(src lines 353-385), applied to the collected candidate link strings. -/
def refNormalizeLinks (page_url : List Char)
    (references_links : List (List Char)) : List (List Char) :=
  sortLex (references_links.foldl (refFilterStep (pageDomainOf page_url)) [])

/-- What the filter stage guarantees for one produced element `e`, given
the page's lower-cased domain `pd` and the candidate link list: `e` is
`https://` followed by a bare host (no `/`, `?` or `#`, so no path and no
query), the host is neither the page's domain nor one of its subdomains,
and it is exactly the lower-cased netloc of one of the candidate links
with a single leading `www.` removed when present. -/
def refProp (pd : List Char) (links : List (List Char)) (e : List Char) :
    Prop :=
  ∃ h, e = toL "https://" ++ h ∧
    (∀ c ∈ h, c ≠ '/' ∧ c ≠ '?' ∧ c ≠ '#') ∧
    (pd ≠ [] → h ≠ pd ∧ ('.' :: pd).isSuffixOf h = false) ∧
    ∃ link ∈ links, ∃ lp, urlparseM link = some lp ∧
      mapLower lp.netloc ≠ [] ∧
      h = if (toL "www.").isPrefixOf (mapLower lp.netloc) = true
          then (mapLower lp.netloc).drop 4 else mapLower lp.netloc

/- ------------------------------------------------------------------ -/
/- extract_references_section: content collection (src lines 260-300) -/
/- ------------------------------------------------------------------ -/

/-- A parsed HTML element as the collection stage sees it: its tag name,
and an identifier standing for the rest of its structure, so that
equality of `Tag`s models BeautifulSoup's structural `Tag.__eq__` (the
source compares elements with `==` and `in`).  The sibling and
descendant sequences BeautifulSoup produces are inputs here: the tree
walk itself is library code, not code of this repository. -/
structure Tag where
  name : List Char
  uid : Nat
deriving DecidableEq

/-- Heading tag names `h1`-`h6`. -/
def headingNames : List (List Char) :=
  [toL "h1", toL "h2", toL "h3", toL "h4", toL "h5", toL "h6"]

/-- The element kinds kept by the sibling walk (src line 276). -/
def siblingKinds : List (List Char) :=
  [toL "p", toL "div", toL "li", toL "ul", toL "ol", toL "span", toL "a",
   toL "section"]

/-- The tag names the fallback's `find_all` selects (src line 289) —
note that no heading name is among them. -/
def fallbackKinds : List (List Char) :=
  [toL "p", toL "div", toL "li", toL "span", toL "a", toL "ul", toL "ol"]

/-- The sibling walk (src lines 263-279): elements after the header in
order, stopping at the first `h1`-`h6` element or once 20 elements are
collected, keeping only the listed kinds.  (Text nodes, which the loop
skips, are omitted from the input sequence.) -/
def collectSiblings (count : Nat) : List Tag → List Tag
  | [] => []
  | t :: rest =>
    if count < 20 then
      if t.name ∈ headingNames then []
      else if t.name ∈ siblingKinds then t :: collectSiblings (count + 1) rest
      else collectSiblings count rest
    else []

/-- The fallback walk body (src lines 289-300) over the descendants the
container's `find_all(['p','div','li','span','a','ul','ol'])` returns:
the flag is set when the header itself is encountered, at most 20 new
elements are appended, a heading would break the loop, and duplicates
are skipped. -/
def fallbackGo (header : Tag) (found : Bool) (count : Nat)
    (acc : List Tag) : List Tag → List Tag
  | [] => acc
  | t :: rest =>
    if t = header then fallbackGo header true count acc rest
    else if found ∧ count < 20 then
      if t.name ∈ headingNames then acc
      else if t ∈ acc then fallbackGo header found count acc rest
      else fallbackGo header found (count + 1) (acc ++ [t]) rest
    else fallbackGo header found count acc rest

/-- The content-collection stage of `extract_references_section`
(src lines 260-300): the sibling walk, and when it yields fewer than
three elements and an ancestor container exists, the fallback walk over
the container's filtered descendant sequence, appending to what the
sibling walk collected. -/
def sectionContent (header : Tag) (siblings : List Tag)
    (containerDescendants : Option (List Tag)) : List Tag :=
  let s1 := collectSiblings 0 siblings
  if s1.length < 3 then
    match containerDescendants with
    | some ds => fallbackGo header false 0 s1
        (ds.filter (fun t => t.name ∈ fallbackKinds))
    | none => s1
  else s1

/- ------------------------------------------------------------------ -/
/- compare_texts (src lines 630-692)                                  -/
/- ------------------------------------------------------------------ -/

/-- One chunk of `compare_texts` (src lines 666-669): the display text
from the cleaned fragment and the scoring text from its lower-cased
copy. -/
structure Chunk where
  original : List Char
  normalized : List Char
deriving DecidableEq

/-- The word window `words[i:i+chunk_size]` (src line 660). -/
def chunkWindow (wordsN : List (List Char)) (csize i : Nat) : List (List Char) :=
  (wordsN.drop i).take csize

/-- The chunk record built for offset `i` (src lines 662-669): the
display text from the cleaned words at the same offsets (empty slice
falling back to the scoring words), the scoring text from the
lower-cased words. -/
def mkChunkAt (wordsO wordsN : List (List Char)) (csize i : Nat) : Chunk :=
  let cw := chunkWindow wordsN csize i
  let ow := if i < wordsO.length then (wordsO.drop i).take csize else []
  { original := if ow = [] then spaceJoin cw else spaceJoin ow,
    normalized := spaceJoin cw }

/-- The chunking loop `for i in range(0, len(words), step)` (src lines
659-669): the window of `chunk_size` words at `i` is kept when it has at
least 10 words.  The fuel argument only bounds the recursion; `fuel =
len(words) + 1` is enough since `step ≥ 1`. -/
def chunkLoop (wordsO wordsN : List (List Char)) (csize step : Nat) :
    Nat → Nat → List Chunk
  | _, 0 => []
  | i, fuel + 1 =>
    if i < wordsN.length then
      let rest := chunkLoop wordsO wordsN csize step (i + step) fuel
      if 10 ≤ (chunkWindow wordsN csize i).length then
        mkChunkAt wordsO wordsN csize i :: rest
      else rest
    else []

/-- The kept chunks of a cleaned fragment (src lines 651-669).  The
stride is `max(1, int(chunk_size * 0.8))`; for the natural-number chunk
sizes the source uses, `int(chunk_size * 0.8) = 4 * chunk_size / 5`
(floor division). -/
def chunksOf (fragClean : List Char) (csize : Nat) : List Chunk :=
  let wordsN := pyWords (mapLower fragClean)
  chunkLoop (pyWords fragClean) wordsN csize (max 1 (csize * 4 / 5)) 0
    (wordsN.length + 1)

/-- The 200-character display truncation of a missing fragment
(src line 685). -/
def trunc200 (s : List Char) : List Char :=
  if 200 < s.length then s.take 200 ++ toL "..." else s

/-- The scoring loop (src lines 675-687): one score per chunk, and the
below-threshold chunks collected in order with truncated display text.
The scoring function stands for `rapidfuzz.fuzz.token_set_ratio`
(library code; its value on a pair of texts is a number in [0,100]). -/
def scoreLoop (scorer : List Char → List Char → ℚ) (pageLower : List Char)
    (threshold : ℚ) : List Chunk → List ℚ × List (List Char × ℚ)
  | [] => ([], [])
  | c :: cs =>
    let score := scorer c.normalized pageLower
    let r := scoreLoop scorer pageLower threshold cs
    (score :: r.1,
     if score < threshold then (trunc200 c.original, score) :: r.2 else r.2)

/-- Python `min` over a non-empty list (the `else 0.0` default mirrors
src line 689). -/
def pyMin : List ℚ → ℚ
  | [] => 0
  | [x] => x
  | x :: xs => min x (pyMin xs)

/-- Python `sum`. -/
def pySum : List ℚ → ℚ
  | [] => 0
  | x :: xs => x + pySum xs

/-- `compare_texts` (src lines 630-692), parameterised by the scoring
function standing for `rapidfuzz.fuzz.token_set_ratio`: returns
`(min_score, avg_score, missing_fragments)`. -/
def compare_texts (scorer : List Char → List Char → ℚ)
    (doc_fragment page_text : List Char) (threshold : ℚ)
    (chunk_size : Nat) : ℚ × ℚ × List (List Char × ℚ) :=
  if doc_fragment = [] ∨ page_text = [] then (0, 0, [])
  else
    let doc_text_clean := cleanCore doc_fragment
    let page_text_lower := mapLower (cleanCore page_text)
    if pyWords (mapLower doc_text_clean) = [] then (0, 0, [])
    else
      let chunks := chunksOf doc_text_clean chunk_size
      if chunks = [] then (0, 0, [])
      else
        let r := scoreLoop scorer page_text_lower threshold chunks
        (pyMin r.1, pySum r.1 / (r.1.length : ℚ), r.2)

/- ------------------------------------------------------------------ -/
/- check_editors_on_page (src lines 160-183)                          -/
/- ------------------------------------------------------------------ -/

/-- The fixed editor roster (src lines 169-172). -/
def editors : List (List Char) :=
  [toL "Щербаченко Юлія", toL "Севрюков Олександр Вікторович"]

/-- `check_editors_on_page` (src lines 160-183): normalise non-breaking
spaces, then a case-insensitive substring search for each roster name in
roster order. -/
def check_editors_on_page (page_text : List Char) : Bool × List (List Char) :=
  if page_text = [] then (false, [])
  else
    let normalized := nbspFix page_text
    let found := editors.filter
      (fun e => containsSub (mapLower e) (mapLower normalized))
    (0 < found.length, found)

/- ------------------------------------------------------------------ -/
/- Theorems                                                           -/
/- ------------------------------------------------------------------ -/

theorem findFirstBelow_none (p : Nat → Bool) (n : Nat)
    (h : findFirstBelow p n = none) : ∀ j, j < n → p j = false := by
  induction n with
  | zero => omega
  | succ m ih =>
      intro j hj
      rw [findFirstBelow] at h
      cases hE : findFirstBelow p m with
      | some k => rw [hE] at h; cases h
      | none =>
          rw [hE] at h
          by_cases hq : p m = true
          · rw [if_pos hq] at h; cases h
          · rcases Nat.lt_succ_iff_lt_or_eq.mp hj with hj' | hj'
            · exact ih hE j hj'
            · subst hj'; exact Bool.eq_false_iff.mpr hq

theorem findFirstBelow_some (p : Nat → Bool) (n i : Nat)
    (h : findFirstBelow p n = some i) :
    p i = true ∧ i < n ∧ ∀ j, j < i → p j = false := by
  induction n generalizing i with
  | zero => simp [findFirstBelow] at h
  | succ n ih =>
      rw [findFirstBelow] at h
      cases hE : findFirstBelow p n with
      | some k =>
          rw [hE] at h
          cases h
          obtain ⟨h1, h2, h3⟩ := ih _ hE
          exact ⟨h1, by omega, h3⟩
      | none =>
          rw [hE] at h
          by_cases hp : p n = true
          · rw [if_pos hp] at h
            cases h
            exact ⟨hp, by omega, findFirstBelow_none p n hE⟩
          · rw [if_neg hp] at h; cases h

/-- C10: every core function guards missing or empty input and returns
its documented default without raising: the extractors and the cleaner
return the empty string for `None`/non-string input (modelled by `none`),
and `check_editors_on_page` returns `(False, [])` for empty input.  (All
model functions are total, so no input can raise.) -/
theorem c10_input_guards :
    extract_annotation_fragment none = [] ∧
    extract_ukrainian_annotation_fragment none = [] ∧
    clean_text_for_comparison none = [] ∧
    check_editors_on_page [] = (false, []) := by
  refine ⟨rfl, rfl, rfl, ?_⟩
  decide

/-- C6: evaluation of the content-collection stage at a concrete page
refuting the claimed fallback stop conditions.  First conjunct: for a
short-text `span` header whose container holds, after the header, a
paragraph, an `h2` heading and another paragraph, the fallback collects
BOTH paragraphs — it does not stop at the heading, because the
`find_all` tag list contains no heading name, so the dead in-loop
heading check never fires.  Second conjunct: when the located header is
itself a heading (`h2`), the fallback collects nothing at all — the
header never occurs in the filtered descendant sequence, so the
after-the-header flag is never set. -/
theorem c6_fallback_walk_eval :
    sectionContent ⟨toL "span", 0⟩ []
      (some [⟨toL "span", 0⟩, ⟨toL "p", 1⟩, ⟨toL "h2", 2⟩, ⟨toL "p", 3⟩]) =
      [⟨toL "p", 1⟩, ⟨toL "p", 3⟩] ∧
    sectionContent ⟨toL "h2", 0⟩ []
      (some [⟨toL "h2", 0⟩, ⟨toL "p", 1⟩, ⟨toL "p", 2⟩, ⟨toL "p", 3⟩]) = [] := by
  constructor
  · decide
  · decide

theorem scoreLoop_fst_len (scorer : List Char → List Char → ℚ)
    (pl : List Char) (th : ℚ) (l : List Chunk) :
    (scoreLoop scorer pl th l).1.length = l.length := by
  induction l with
  | nil => rfl
  | cons c cs ih => simp [scoreLoop, ih]

theorem pyMin_le_mem (l : List ℚ) (x : ℚ) (hx : x ∈ l) : pyMin l ≤ x := by
  induction l with
  | nil => simp at hx
  | cons a as ih =>
      cases as with
      | nil => simp at hx; simp [pyMin, hx]
      | cons b bs =>
          rw [List.mem_cons] at hx
          rcases hx with rfl | hx
          · exact min_le_left _ _
          · exact le_trans (min_le_right _ _) (ih hx)

theorem pyMin_mem (l : List ℚ) (h : l ≠ []) : pyMin l ∈ l := by
  induction l with
  | nil => exact absurd rfl h
  | cons a as ih =>
      cases as with
      | nil => simp [pyMin]
      | cons b bs =>
          have hmin : pyMin (a :: b :: bs) = min a (pyMin (b :: bs)) := rfl
          rw [hmin]
          rcases min_cases a (pyMin (b :: bs)) with ⟨hm, -⟩ | ⟨hm, -⟩
          · rw [hm]; exact List.mem_cons_self _ _
          · rw [hm]; exact List.mem_cons_of_mem _ (ih (List.cons_ne_nil b bs))

theorem pyMin_mul_le_pySum (l : List ℚ) (h : l ≠ []) :
    pyMin l * l.length ≤ pySum l := by
  induction l with
  | nil => exact absurd rfl h
  | cons a as ih =>
      cases as with
      | nil => simp [pyMin, pySum]
      | cons b bs =>
          have hmin : pyMin (a :: b :: bs) = min a (pyMin (b :: bs)) := rfl
          have hsum : pySum (a :: b :: bs) = a + pySum (b :: bs) := rfl
          have hlen : ((a :: b :: bs).length : ℚ) = 1 + ((b :: bs).length : ℚ) := by
            push_cast [List.length_cons]; ring
          rw [hmin, hsum, hlen, mul_add, mul_one]
          have h1 : min a (pyMin (b :: bs)) ≤ a := min_le_left _ _
          have h2 : min a (pyMin (b :: bs)) * ((b :: bs).length : ℚ) ≤
              pyMin (b :: bs) * ((b :: bs).length : ℚ) :=
            mul_le_mul_of_nonneg_right (min_le_right _ _) (by positivity)
          have h3 := ih (by simp)
          linarith

/-- C9: for every scoring function, fragment, page text, threshold and
chunk size, `compare_texts` returns a minimum score that is at most the
average score (they are the minimum and the arithmetic mean of the same
window scores; in the degenerate zero-result branches both are 0). -/
theorem c9_min_le_avg (scorer : List Char → List Char → ℚ)
    (doc_fragment page_text : List Char) (threshold : ℚ) (chunk_size : Nat) :
    (compare_texts scorer doc_fragment page_text threshold chunk_size).1 ≤
    (compare_texts scorer doc_fragment page_text threshold chunk_size).2.1 := by
  simp only [compare_texts]
  split
  · simp
  · split
    · simp
    · split
      · simp
      · rename_i h3
        set chunks := chunksOf (cleanCore doc_fragment) chunk_size with hc
        set r := scoreLoop scorer (mapLower (cleanCore page_text)) threshold
          chunks with hr
        have hne : r.1 ≠ [] := by
          have hl := scoreLoop_fst_len scorer
            (mapLower (cleanCore page_text)) threshold chunks
          rw [← hr] at hl
          intro hnil
          rw [hnil] at hl
          simp at hl
          exact h3 (List.length_eq_zero.mp hl.symm)
        have hpos : (0 : ℚ) < (r.1.length : ℚ) := by
          have : 0 < r.1.length := List.length_pos.mpr hne
          exact_mod_cast this
        dsimp only
        rw [le_div_iff hpos]
        exact pyMin_mul_le_pySum r.1 hne

theorem scoreLoop_eq (scorer : List Char → List Char → ℚ) (pl : List Char)
    (th : ℚ) (l : List Chunk) :
    scoreLoop scorer pl th l =
      (l.map (fun c => scorer c.normalized pl),
       (l.filter (fun c => decide (scorer c.normalized pl < th))).map
         (fun c => (trunc200 c.original, scorer c.normalized pl))) := by
  induction l with
  | nil => rfl
  | cons c cs ih =>
      rw [scoreLoop, ih]
      by_cases hs : scorer c.normalized pl < th
      · simp [hs]
      · simp [hs]

theorem chunksOf_empty_of_no_words (fragClean : List Char) (csize : Nat)
    (hw : pyWords (mapLower fragClean) = []) :
    chunksOf fragClean csize = [] := by
  rw [chunksOf]
  rw [hw]
  rfl

/-- C3: whenever at least one window is kept, `compare_texts` returns the
minimum of the window scores as `minScore`, their arithmetic mean as
`avgScore`, and as the missing list exactly the windows scoring strictly
below the threshold, in chunk order, each carrying the window's
original-case text truncated by `trunc200` (200 characters plus an
ellipsis when longer) together with its score; and the returned
`minScore` is indeed the minimum: it is one of the scores and is at most
each of them. -/
theorem c3_aggregation (scorer : List Char → List Char → ℚ)
    (doc_fragment page_text : List Char) (threshold : ℚ) (chunk_size : Nat)
    (h1 : doc_fragment ≠ []) (h2 : page_text ≠ [])
    (h3 : chunksOf (cleanCore doc_fragment) chunk_size ≠ []) :
    compare_texts scorer doc_fragment page_text threshold chunk_size =
      (pyMin ((chunksOf (cleanCore doc_fragment) chunk_size).map
          (fun c => scorer c.normalized (mapLower (cleanCore page_text)))),
       pySum ((chunksOf (cleanCore doc_fragment) chunk_size).map
          (fun c => scorer c.normalized (mapLower (cleanCore page_text)))) /
         (((chunksOf (cleanCore doc_fragment) chunk_size).map
          (fun c => scorer c.normalized (mapLower (cleanCore page_text)))).length : ℚ),
       ((chunksOf (cleanCore doc_fragment) chunk_size).filter
          (fun c => decide (scorer c.normalized (mapLower (cleanCore page_text)) <
            threshold))).map
         (fun c => (trunc200 c.original,
            scorer c.normalized (mapLower (cleanCore page_text))))) ∧
    pyMin ((chunksOf (cleanCore doc_fragment) chunk_size).map
        (fun c => scorer c.normalized (mapLower (cleanCore page_text)))) ∈
      (chunksOf (cleanCore doc_fragment) chunk_size).map
        (fun c => scorer c.normalized (mapLower (cleanCore page_text))) ∧
    ∀ s ∈ (chunksOf (cleanCore doc_fragment) chunk_size).map
        (fun c => scorer c.normalized (mapLower (cleanCore page_text))),
      pyMin ((chunksOf (cleanCore doc_fragment) chunk_size).map
        (fun c => scorer c.normalized (mapLower (cleanCore page_text)))) ≤ s := by
  have hw : pyWords (mapLower (cleanCore doc_fragment)) ≠ [] := by
    intro hwe
    exact h3 (chunksOf_empty_of_no_words _ _ hwe)
  have hmap : (chunksOf (cleanCore doc_fragment) chunk_size).map
      (fun c => scorer c.normalized (mapLower (cleanCore page_text))) ≠ [] := by
    simpa using h3
  refine ⟨?_, pyMin_mem _ hmap, fun s hs => pyMin_le_mem _ s hs⟩
  simp only [compare_texts]
  rw [if_neg (by simp [h1, h2]), if_neg hw, if_neg h3, scoreLoop_eq]

theorem c3_aggregation_witness :
    compare_texts (fun _ _ => (50 : ℚ)) (toL "a b c d e f g h i j k l")
      (toL "x") 75 12 = (50, 50, [(toL "a b c d e f g h i j k l", 50)]) := by
  have h := (c3_aggregation (fun _ _ => (50 : ℚ))
    (toL "a b c d e f g h i j k l") (toL "x") 75 12 (by decide) (by decide)
    (by simp [chunksOf, chunkLoop, chunkWindow, mkChunkAt, cleanCore, collapseWs, wsSub, wsSubGo,
      stripWs, stripRight, pyWords, mapLower, lowerChar, nbspFix, normNl,
      removeTags, boldSub, starSub, underscoreSub, headingSub, headMatch,
      footnoteSub, dashSub, dotSub, isDash, pySpace, pySpaceCodes, toL,
      spaceJoin, findClose1, findClose2])).1
  rw [h]
  simp [chunksOf, chunkLoop, chunkWindow, mkChunkAt, cleanCore, collapseWs, wsSub, wsSubGo, stripWs,
    stripRight, pyWords, mapLower, lowerChar, nbspFix, normNl, removeTags,
    boldSub, starSub, underscoreSub, headingSub, headMatch, footnoteSub,
    dashSub, dotSub, isDash, pySpace, pySpaceCodes, toL, spaceJoin,
    findClose1, findClose2, pyMin, pySum, trunc200]
  decide

/-- C7: when no valid start marker exists, the PRIMARY extractor returns
the whole whitespace-normalised, trimmed document text (fallback, not
failure), while the SECONDARY extractor returns the empty fragment
(failure, not fallback); both model functions are total, so neither can
raise. -/
theorem c7_no_marker_fallbacks (text : List Char) :
    (chosenStart (wsNormalize text) = none →
      extract_annotation_fragment (some text) = stripWs (wsNormalize text)) ∧
    (findFirstBelow (fun i => uaStartAt (wsNormalize text) i)
        (wsNormalize text).length = none →
      extract_ukrainian_annotation_fragment (some text) = []) := by
  constructor
  · intro h1
    by_cases ht : text = []
    · subst ht; rfl
    · simp only [extract_annotation_fragment, if_neg ht, h1]
  · intro h2
    by_cases ht : text = []
    · subst ht; rfl
    · simp only [extract_ukrainian_annotation_fragment, if_neg ht, h2]

theorem c7_no_marker_fallbacks_witness :
    extract_annotation_fragment (some (toL "нет маркеров вовсе")) =
      stripWs (wsNormalize (toL "нет маркеров вовсе")) ∧
    extract_ukrainian_annotation_fragment (some (toL "нет маркеров вовсе")) = [] :=
  ⟨(c7_no_marker_fallbacks (toL "нет маркеров вовсе")).1 (by decide),
   (c7_no_marker_fallbacks (toL "нет маркеров вовсе")).2 (by decide)⟩

/-- C1: the PRIMARY extractor's chosen start marker is the first
case-insensitive occurrence of `Аннотация`/`Аннотація` in the
whitespace-normalised text that is not preceded, within the 20 characters
immediately before it, by `перевод` or `переклад` (case-insensitive):
any chosen position is such an occurrence and every earlier occurrence is
excluded; when every occurrence is excluded no start is chosen; and with
no chosen start the whole-text fallback applies. -/
theorem c1_start_marker_selection (text : List Char) :
    (∀ i, chosenStart (wsNormalize text) = some i →
      annStartAt (wsNormalize text) i = true ∧
      excludedAt (wsNormalize text) i = false ∧
      (∀ j, j < i → annStartAt (wsNormalize text) j = true →
        excludedAt (wsNormalize text) j = true)) ∧
    ((∀ i, annStartAt (wsNormalize text) i = true →
        excludedAt (wsNormalize text) i = true) →
      chosenStart (wsNormalize text) = none) ∧
    (chosenStart (wsNormalize text) = none →
      extract_annotation_fragment (some text) = stripWs (wsNormalize text)) := by
  refine ⟨?_, ?_, ?_⟩
  · intro i hi
    obtain ⟨hp, -, hfirst⟩ := findFirstBelow_some _ _ _ hi
    rw [Bool.and_eq_true, Bool.not_eq_true'] at hp
    refine ⟨hp.1, hp.2, fun j hj hann => ?_⟩
    have := hfirst j hj
    rw [Bool.and_eq_false_iff] at this
    rcases this with hc | hc
    · exact absurd hann (by simp [hc])
    · simpa using hc
  · intro hall
    cases hE : chosenStart (wsNormalize text) with
    | none => rfl
    | some i =>
        obtain ⟨hp, -, -⟩ := findFirstBelow_some _ _ _ hE
        rw [Bool.and_eq_true, Bool.not_eq_true'] at hp
        rw [hall i hp.1] at hp
        cases hp.2
  · intro h1
    by_cases ht : text = []
    · subst ht; rfl
    · simp only [extract_annotation_fragment, if_neg ht, h1]

theorem c1_start_marker_selection_witness :
    chosenStart (wsNormalize (toL "Перевод Аннотация один Аннотация два")) =
      some 23 ∧
    annStartAt (wsNormalize (toL "Перевод Аннотация один Аннотация два"))
      23 = true ∧
    excludedAt (wsNormalize (toL "Перевод Аннотация один Аннотация два"))
      23 = false ∧
    excludedAt (wsNormalize (toL "Перевод Аннотация один Аннотация два"))
      8 = true :=
  ⟨by decide,
   ((c1_start_marker_selection
      (toL "Перевод Аннотация один Аннотация два")).1 23 (by decide)).1,
   ((c1_start_marker_selection
      (toL "Перевод Аннотация один Аннотация два")).1 23 (by decide)).2.1,
   ((c1_start_marker_selection
      (toL "Перевод Аннотация один Аннотация два")).1 23 (by decide)).2.2
      8 (by decide) (by decide)⟩

theorem takeWhile_all_eq (p : Char → Bool) (l : List Char)
    (h : ∀ c ∈ l, p c = true) : l.takeWhile p = l := by
  induction l with
  | nil => rfl
  | cons x xs ih =>
      rw [List.takeWhile_cons, if_pos (h x (List.mem_cons_self x xs))]
      rw [ih (fun c hc => h c (List.mem_cons_of_mem x hc))]

theorem dropWhile_all_eq (p : Char → Bool) (l : List Char)
    (h : ∀ c ∈ l, p c = true) : l.dropWhile p = [] := by
  induction l with
  | nil => rfl
  | cons x xs ih =>
      rw [List.dropWhile_cons, if_pos (h x (List.mem_cons_self x xs))]
      exact ih (fun c hc => h c (List.mem_cons_of_mem x hc))

theorem takeWhile_append_stop (p : Char → Bool) (a : List Char) (x : Char)
    (z : List Char) (ha : ∀ c ∈ a, p c = true) (hx : p x = false) :
    (a ++ x :: z).takeWhile p = a := by
  induction a with
  | nil => simp [List.takeWhile_cons, hx]
  | cons y ys ih =>
      rw [List.cons_append, List.takeWhile_cons,
        if_pos (ha y (List.mem_cons_self y ys))]
      rw [ih (fun c hc => ha c (List.mem_cons_of_mem y hc))]

theorem dropWhile_append_stop (p : Char → Bool) (a : List Char) (x : Char)
    (z : List Char) (ha : ∀ c ∈ a, p c = true) (hx : p x = false) :
    (a ++ x :: z).dropWhile p = x :: z := by
  induction a with
  | nil => simp [List.dropWhile_cons, hx]
  | cons y ys ih =>
      rw [List.cons_append, List.dropWhile_cons,
        if_pos (ha y (List.mem_cons_self y ys))]
      exact ih (fun c hc => ha c (List.mem_cons_of_mem y hc))

/-- Every word `str.split()` produces is non-empty and whitespace-free. -/
theorem pyWords_words (s : List Char) :
    ∀ w ∈ pyWords s, w ≠ [] ∧ ∀ c ∈ w, pySpace c = false := by
  induction s using pyWords.induct with
  | case1 => intro w hw; simp [pyWords] at hw
  | case2 c rest hws ih =>
      intro w hw
      rw [pyWords, if_pos hws] at hw
      exact ih w hw
  | case3 c rest hws ih =>
      intro w hw
      rw [pyWords, if_neg hws] at hw
      rcases List.mem_cons.mp hw with rfl | hw
      · refine ⟨List.cons_ne_nil _ _, fun d hd => ?_⟩
        rcases List.mem_cons.mp hd with rfl | hd
        · exact Bool.eq_false_iff.mpr hws
        · have := List.mem_takeWhile_imp hd
          simpa using this
      · exact ih w hw

/-- `' '.join` then `split()` is the identity on lists of non-empty
whitespace-free words. -/
theorem pyWords_spaceJoin (ws : List (List Char))
    (h : ∀ w ∈ ws, w ≠ [] ∧ ∀ c ∈ w, pySpace c = false) :
    pyWords (spaceJoin ws) = ws := by
  induction ws with
  | nil => simp [spaceJoin, pyWords]
  | cons w ws ih =>
      obtain ⟨hne, hwf⟩ := h w (List.mem_cons_self w ws)
      cases w with
      | nil => exact absurd rfl hne
      | cons c cs =>
          have hc : pySpace c = false := hwf c (List.mem_cons_self c cs)
          have hcs : ∀ d ∈ cs, (fun d => !pySpace d) d = true := by
            intro d hd
            simp [hwf d (List.mem_cons_of_mem c hd)]
          cases ws with
          | nil =>
              show pyWords (c :: cs) = [c :: cs]
              rw [pyWords, if_neg (by simp [hc])]
              rw [takeWhile_all_eq _ _ hcs, dropWhile_all_eq _ _ hcs]
              simp [pyWords]
          | cons w2 ws2 =>
              show pyWords ((c :: cs) ++ ' ' :: spaceJoin (w2 :: ws2)) = _
              rw [List.cons_append, pyWords, if_neg (by simp [hc])]
              rw [takeWhile_append_stop _ cs ' ' _ hcs (by simp [pySpace, pySpaceCodes]),
                dropWhile_append_stop _ cs ' ' _ hcs (by simp [pySpace, pySpaceCodes])]
              rw [pyWords, if_pos (by simp [pySpace, pySpaceCodes])]
              rw [ih (fun w hw => h w (List.mem_cons_of_mem _ hw))]

theorem ceilDiv_step (n i step : Nat) (hstep : 0 < step) (hi : i < n) :
    (n - i + step - 1) / step = (n - (i + step) + step - 1) / step + 1 := by
  have hm : 1 ≤ n - i := by omega
  have h1 : n - (i + step) = n - i - step := by omega
  rw [h1]
  by_cases hc : n - i ≤ step
  · have h2 : n - i - step = 0 := by omega
    rw [h2]
    have h3 : n - i + step - 1 = (n - i - 1) + step := by omega
    rw [h3, Nat.add_div_right _ hstep,
      Nat.div_eq_of_lt (by omega), Nat.div_eq_of_lt (by omega)]
  · have h3 : n - i + step - 1 = (n - i - 1) + step := by omega
    have h4 : n - i - step + step - 1 = n - i - 1 := by omega
    rw [h3, h4, Nat.add_div_right _ hstep]

theorem chunkLoop_closed (wordsO wordsN : List (List Char)) (csize step : Nat)
    (hstep : 0 < step) :
    ∀ fuel i, wordsN.length ≤ i + fuel →
    chunkLoop wordsO wordsN csize step i fuel =
      (((List.range ((wordsN.length - i + step - 1) / step)).map
          (fun j => i + j * step)).filter
          (fun k => decide (10 ≤ (chunkWindow wordsN csize k).length))).map
        (mkChunkAt wordsO wordsN csize) := by
  intro fuel
  induction fuel with
  | zero =>
      intro i hf
      have h0 : wordsN.length - i = 0 := by omega
      rw [chunkLoop, h0]
      rw [Nat.div_eq_of_lt (by omega)]
      simp
  | succ fuel ih =>
      intro i hf
      by_cases hn : i < wordsN.length
      · rw [chunkLoop, if_pos hn]
        rw [ceilDiv_step _ _ _ hstep hn]
        rw [List.range_succ_eq_map, List.map_cons, List.map_map]
        have hmap : (List.map ((fun j => i + j * step) ∘ Nat.succ)
            (List.range ((wordsN.length - (i + step) + step - 1) / step))) =
            (List.map (fun j => (i + step) + j * step)
              (List.range ((wordsN.length - (i + step) + step - 1) / step))) := by
          apply List.map_congr_left
          intro j hj
          simp [Nat.succ_mul]
          ring
        rw [hmap]
        rw [List.filter_cons]
        simp only [Nat.zero_mul, Nat.add_zero]
        have hrest := ih (i + step) (by omega)
        by_cases hk : 10 ≤ (chunkWindow wordsN csize i).length
        · rw [if_pos hk, if_pos (by simpa using hk), List.map_cons, hrest]
        · rw [if_neg hk, if_neg (by simpa using hk), hrest]
      · rw [chunkLoop, if_neg hn]
        have h0 : wordsN.length - i = 0 := by omega
        rw [h0, Nat.div_eq_of_lt (by omega)]
        simp

/-- C2: the kept chunks of a fragment are exactly the windows
`words[j*step : j*step + chunk_size]` of the cleaned, lower-cased word
sequence, for `j = 0, 1, ...` with stride `step = max 1 (4*chunk_size/5)`
(that is, `max(1, int(chunk_size*0.8))`), filtered to those with at
least 10 words — shorter trailing windows are dropped, not padded — and
every kept chunk has between 10 and `chunk_size` words. -/
theorem c2_chunking (frag : List Char) (csize : Nat) :
    chunksOf (cleanCore frag) csize =
      (((List.range (((pyWords (mapLower (cleanCore frag))).length +
            max 1 (csize * 4 / 5) - 1) / max 1 (csize * 4 / 5))).map
          (fun j => j * max 1 (csize * 4 / 5))).filter
          (fun k => decide (10 ≤
            (chunkWindow (pyWords (mapLower (cleanCore frag))) csize k).length))).map
        (mkChunkAt (pyWords (cleanCore frag))
          (pyWords (mapLower (cleanCore frag))) csize) ∧
    ∀ c ∈ chunksOf (cleanCore frag) csize,
      10 ≤ (pyWords c.normalized).length ∧
      (pyWords c.normalized).length ≤ csize := by
  have hstep : 0 < max 1 (csize * 4 / 5) := by
    simp [Nat.lt_of_lt_of_le Nat.zero_lt_one (le_max_left _ _)]
  have hclosed := chunkLoop_closed (pyWords (cleanCore frag))
    (pyWords (mapLower (cleanCore frag))) csize (max 1 (csize * 4 / 5)) hstep
    ((pyWords (mapLower (cleanCore frag))).length + 1) 0 (by omega)
  have hmain : chunksOf (cleanCore frag) csize =
      (((List.range (((pyWords (mapLower (cleanCore frag))).length +
            max 1 (csize * 4 / 5) - 1) / max 1 (csize * 4 / 5))).map
          (fun j => j * max 1 (csize * 4 / 5))).filter
          (fun k => decide (10 ≤
            (chunkWindow (pyWords (mapLower (cleanCore frag))) csize k).length))).map
        (mkChunkAt (pyWords (cleanCore frag))
          (pyWords (mapLower (cleanCore frag))) csize) := by
    rw [chunksOf, hclosed, Nat.sub_zero]
    congr 2
    apply List.map_congr_left
    intro j hj
    omega
  refine ⟨hmain, fun c hc => ?_⟩
  rw [hmain] at hc
  obtain ⟨k, hk, rfl⟩ := List.mem_map.mp hc
  obtain ⟨-, hkept⟩ := List.mem_filter.mp hk
  rw [decide_eq_true_eq] at hkept
  have hnorm : (mkChunkAt (pyWords (cleanCore frag))
      (pyWords (mapLower (cleanCore frag))) csize k).normalized =
      spaceJoin (chunkWindow (pyWords (mapLower (cleanCore frag))) csize k) := rfl
  rw [hnorm, pyWords_spaceJoin]
  · refine ⟨hkept, ?_⟩
    exact le_trans (List.length_take_le _ _) (le_refl _)
  · intro w hw
    have hw2 : w ∈ pyWords (mapLower (cleanCore frag)) := by
      have h1 := List.mem_of_mem_take hw
      exact List.mem_of_mem_drop h1
    exact pyWords_words _ w hw2

theorem c2_chunking_witness :
    10 ≤ (pyWords (Chunk.mk (toL "a b c d e f g h i j k l")
      (toL "a b c d e f g h i j k l")).normalized).length ∧
    (pyWords (Chunk.mk (toL "a b c d e f g h i j k l")
      (toL "a b c d e f g h i j k l")).normalized).length ≤ 12 :=
  (c2_chunking (toL "a b c d e f g h i j k l") 12).2
    ⟨toL "a b c d e f g h i j k l", toL "a b c d e f g h i j k l"⟩
    (by simp [chunksOf, chunkLoop, chunkWindow, mkChunkAt, cleanCore, collapseWs,
      wsSub, wsSubGo, stripWs, stripRight, pyWords, mapLower, lowerChar, nbspFix,
      normNl, removeTags, boldSub, starSub, underscoreSub, headingSub, headMatch,
      footnoteSub, dashSub, dotSub, isDash, pySpace, pySpaceCodes, toL, spaceJoin,
      findClose1, findClose2])

theorem lexLe_cons_iff (x y : Char) (as bs : List Char) :
    lexLe (x :: as) (y :: bs) = true ↔
      x < y ∨ (x = y ∧ lexLe as bs = true) := by
  rw [lexLe]
  by_cases hxy : x < y
  · simp [hxy]
  · by_cases hyx : y < x
    · have hne : x ≠ y := by
        intro hE; rw [hE] at hyx; exact lt_irrefl y hyx
      simp [hxy, hyx, hne]
    · have heq : x = y := le_antisymm (not_lt.mp hyx) (not_lt.mp hxy)
      simp [hxy, hyx, heq]

theorem lexLe_total (a b : List Char) : lexLe a b = true ∨ lexLe b a = true := by
  induction a generalizing b with
  | nil => left; rfl
  | cons x as ih =>
      cases b with
      | nil => right; rfl
      | cons y bs =>
          rcases lt_trichotomy x y with hlt | heq | hgt
          · left; rw [lexLe_cons_iff]; exact Or.inl hlt
          · rcases ih bs with h | h
            · left; rw [lexLe_cons_iff]; exact Or.inr ⟨heq, h⟩
            · right; rw [lexLe_cons_iff]; exact Or.inr ⟨heq.symm, h⟩
          · right; rw [lexLe_cons_iff]; exact Or.inl hgt

theorem lexLe_trans (a b c : List Char) (hab : lexLe a b = true)
    (hbc : lexLe b c = true) : lexLe a c = true := by
  induction a generalizing b c with
  | nil => rfl
  | cons x as ih =>
      cases b with
      | nil => simp [lexLe] at hab
      | cons y bs =>
          cases c with
          | nil => simp [lexLe] at hbc
          | cons z cs =>
              rw [lexLe_cons_iff] at hab hbc ⊢
              rcases hab with hab | ⟨rfl, hab⟩
              · rcases hbc with hbc | ⟨rfl, -⟩
                · exact Or.inl (lt_trans hab hbc)
                · exact Or.inl hab
              · rcases hbc with hbc | ⟨rfl, hbc⟩
                · exact Or.inl hbc
                · exact Or.inr ⟨rfl, ih bs cs hab hbc⟩

theorem insertLex_perm (x : List Char) (l : List (List Char)) :
    (insertLex x l).Perm (x :: l) := by
  induction l with
  | nil => exact List.Perm.refl _
  | cons y ys ih =>
      rw [insertLex]
      by_cases h : lexLe x y = true
      · rw [if_pos h]
      · rw [if_neg h]
        exact List.Perm.trans (List.Perm.cons y ih) (List.Perm.swap x y ys)

theorem insertLex_sorted (x : List Char) (l : List (List Char))
    (hl : l.Pairwise (fun a b => lexLe a b = true)) :
    (insertLex x l).Pairwise (fun a b => lexLe a b = true) := by
  induction l with
  | nil => simp [insertLex]
  | cons y ys ih =>
      rw [insertLex]
      rw [List.pairwise_cons] at hl
      by_cases h : lexLe x y = true
      · rw [if_pos h]
        rw [List.pairwise_cons]
        refine ⟨fun b hb => ?_, List.pairwise_cons.mpr hl⟩
        rcases List.mem_cons.mp hb with rfl | hb
        · exact h
        · exact lexLe_trans _ _ _ h (hl.1 b hb)
      · rw [if_neg h]
        rw [List.pairwise_cons]
        refine ⟨fun b hb => ?_, ih hl.2⟩
        have hyx : lexLe y x = true := by
          rcases lexLe_total x y with h' | h'
          · exact absurd h' h
          · exact h'
        rcases List.mem_cons.mp ((insertLex_perm x ys).mem_iff.mp hb) with rfl | hb2
        · exact hyx
        · exact hl.1 b hb2

theorem sortLex_perm (l : List (List Char)) : (sortLex l).Perm l := by
  induction l with
  | nil => exact List.Perm.refl _
  | cons x xs ih =>
      rw [sortLex]
      exact List.Perm.trans (insertLex_perm x (sortLex xs)) (List.Perm.cons x ih)

theorem sortLex_sorted (l : List (List Char)) :
    (sortLex l).Pairwise (fun a b => lexLe a b = true) := by
  induction l with
  | nil => simp [sortLex]
  | cons x xs ih => exact insertLex_sorted x (sortLex xs) ih

theorem toNat_ofNat_small (n : Nat) (h : n < 0xd800) :
    (Char.ofNat n).toNat = n := by
  have hv : n.isValidChar := Or.inl h
  unfold Char.ofNat
  rw [dif_pos hv]
  simp [Char.ofNatAux, Char.toNat, UInt32.toNat, UInt32.ofNatCore]

theorem lowerChar_netChar (c : Char) (h : netChar c = true) :
    netChar (lowerChar c) = true := by
  rw [lowerChar]
  by_cases h1 : 0x41 ≤ c.toNat ∧ c.toNat ≤ 0x5a
  · rw [if_pos h1]
    obtain ⟨h1a, h1b⟩ := h1
    have ht : (Char.ofNat (c.toNat + 0x20)).toNat = c.toNat + 0x20 :=
      toNat_ofNat_small _ (by omega)
    simp only [netChar, decide_eq_true_eq]
    refine ⟨fun hE => ?_, fun hE => ?_, fun hE => ?_⟩
    · rw [hE, show Char.toNat '/' = 47 from rfl] at ht; omega
    · rw [hE, show Char.toNat '?' = 63 from rfl] at ht; omega
    · rw [hE, show Char.toNat '#' = 35 from rfl] at ht; omega
  · rw [if_neg h1]
    by_cases h2 : 0x410 ≤ c.toNat ∧ c.toNat ≤ 0x42f
    · rw [if_pos h2]
      obtain ⟨h2a, h2b⟩ := h2
      have ht : (Char.ofNat (c.toNat + 0x20)).toNat = c.toNat + 0x20 :=
        toNat_ofNat_small _ (by omega)
      simp only [netChar, decide_eq_true_eq]
      refine ⟨fun hE => ?_, fun hE => ?_, fun hE => ?_⟩
      · rw [hE, show Char.toNat '/' = 47 from rfl] at ht; omega
      · rw [hE, show Char.toNat '?' = 63 from rfl] at ht; omega
      · rw [hE, show Char.toNat '#' = 35 from rfl] at ht; omega
    · rw [if_neg h2]
      by_cases h3 : 0x400 ≤ c.toNat ∧ c.toNat ≤ 0x40f
      · rw [if_pos h3]
        obtain ⟨h3a, h3b⟩ := h3
        have ht : (Char.ofNat (c.toNat + 0x50)).toNat = c.toNat + 0x50 :=
          toNat_ofNat_small _ (by omega)
        simp only [netChar, decide_eq_true_eq]
        refine ⟨fun hE => ?_, fun hE => ?_, fun hE => ?_⟩
        · rw [hE, show Char.toNat '/' = 47 from rfl] at ht; omega
        · rw [hE, show Char.toNat '?' = 63 from rfl] at ht; omega
        · rw [hE, show Char.toNat '#' = 35 from rfl] at ht; omega
      · rw [if_neg h3]
        by_cases h4 : c.toNat = 0x490
        · rw [if_pos h4]
          decide
        · rw [if_neg h4]
          exact h

theorem splitNetloc_chars (u nl u3 : List Char)
    (h : splitNetloc u = some (nl, u3)) : ∀ c ∈ nl, netChar c = true := by
  rw [splitNetloc.eq_def] at h
  split at h
  · dsimp only at h
    split at h
    · cases h
    · simp only [Option.some.injEq, Prod.mk.injEq] at h
      obtain ⟨h1, -⟩ := h
      intro c hc
      rw [← h1] at hc
      exact List.mem_takeWhile_imp hc
  · simp only [Option.some.injEq, Prod.mk.injEq] at h
    obtain ⟨h1, -⟩ := h
    intro c hc
    rw [← h1] at hc
    simp at hc

theorem urlsplitM_netloc_chars (url : List Char) (p : UrlParts)
    (h : urlsplitM url = some p) : ∀ c ∈ p.netloc, netChar c = true := by
  simp only [urlsplitM] at h
  split at h
  · cases h
  · next nl u3 heq =>
      cases h
      exact splitNetloc_chars _ _ _ heq

theorem urlparseM_netloc_chars (url : List Char) (p : UrlParts)
    (h : urlparseM url = some p) : ∀ c ∈ p.netloc, netChar c = true := by
  simp only [urlparseM, Option.map_eq_some'] at h
  obtain ⟨q, hq, hfq⟩ := h
  have hnet := urlsplitM_netloc_chars url q hq
  subst hfq
  by_cases hc : q.scheme ∈ usesParamsSchemes ∧ ';' ∈ q.path
  · rw [if_pos hc]
    simpa using hnet
  · rw [if_neg hc]
    exact hnet

theorem refFilterStep_inv (pd : List Char) (L : List (List Char))
    (acc : List (List Char)) (link : List Char) (hlink : link ∈ L)
    (hnd : acc.Nodup) (hP : ∀ e ∈ acc, refProp pd L e) :
    (refFilterStep pd acc link).Nodup ∧
    ∀ e ∈ refFilterStep pd acc link, refProp pd L e := by
  rw [refFilterStep]
  cases hparse : urlparseM link with
  | none => exact ⟨hnd, hP⟩
  | some lp =>
      simp only
      by_cases hd0 : mapLower lp.netloc = []
      · rw [if_pos hd0]; exact ⟨hnd, hP⟩
      · rw [if_neg hd0]
        by_cases hflt : pd ≠ [] ∧ (mapLower lp.netloc = pd ∨
            ('.' :: pd).isSuffixOf (mapLower lp.netloc) = true)
        · rw [if_pos (by simpa using hflt)]; exact ⟨hnd, hP⟩
        · rw [if_neg (by simpa using hflt)]
          by_cases hmem : (toL "https://" ++
              (if (toL "www.").isPrefixOf (mapLower lp.netloc) = true
                then (mapLower lp.netloc).drop 4 else mapLower lp.netloc)) ∈ acc
          · rw [if_pos hmem]; exact ⟨hnd, hP⟩
          · rw [if_neg hmem]
            constructor
            · rw [List.nodup_append]
              exact ⟨hnd, List.nodup_singleton _,
                fun a ha hb => hmem ((List.mem_singleton.mp hb) ▸ ha)⟩
            · intro e he
              rcases List.mem_append.mp he with he | he
              · exact hP e he
              · rw [List.mem_singleton.mp he, refProp]
                refine ⟨_, rfl, ?_, fun hpd => ?_,
                  link, hlink, lp, hparse, hd0, rfl⟩
                · intro c hc
                  have hd : c ∈ mapLower lp.netloc := by
                    by_cases hw : (toL "www.").isPrefixOf
                        (mapLower lp.netloc) = true
                    · rw [if_pos hw] at hc
                      exact List.mem_of_mem_drop hc
                    · rw [if_neg hw] at hc
                      exact hc
                  obtain ⟨c0, hc0, rfl⟩ := List.mem_map.mp hd
                  have hnc := urlparseM_netloc_chars link lp hparse c0 hc0
                  have hlc := lowerChar_netChar c0 hnc
                  simpa only [netChar, decide_eq_true_eq] using hlc
                · have hcond : ¬(mapLower lp.netloc = pd ∨
                      ('.' :: pd).isSuffixOf (mapLower lp.netloc) = true) := by
                    intro hor; exact hflt ⟨hpd, hor⟩
                  push_neg at hcond
                  obtain ⟨hne, hsuf⟩ := hcond
                  have hsuf' : ('.' :: pd).isSuffixOf (mapLower lp.netloc) =
                      false := Bool.eq_false_iff.mpr hsuf
                  by_cases hw : (toL "www.").isPrefixOf
                      (mapLower lp.netloc) = true
                  · rw [if_pos hw]
                    obtain ⟨t, ht⟩ := List.isPrefixOf_iff_prefix.mp hw
                    have hdrop : (mapLower lp.netloc).drop 4 = t := by
                      rw [← ht]
                      have h4 : (toL "www.").length = 4 := rfl
                      rw [← h4, List.drop_left]
                    rw [hdrop]
                    constructor
                    · intro hEq
                      apply hne
                      rw [← ht, hEq]
                      have hrw : toL "www." ++ pd =
                          ['w', 'w', 'w'] ++ '.' :: pd := rfl
                      have hsx : ('.' :: pd) <:+ mapLower lp.netloc := by
                        rw [← ht, hEq, hrw]
                        exact List.suffix_append _ _
                      exact absurd (List.isSuffixOf_iff_suffix.mpr hsx)
                        (by rw [← ht, hEq] at hsuf'
                            rw [← ht, hEq]; simp [hsuf'])
                    · by_contra hcs
                      rw [Bool.not_eq_false] at hcs
                      have h1 : ('.' :: pd) <:+ t :=
                        List.isSuffixOf_iff_suffix.mp hcs
                      have h2 : t <:+ mapLower lp.netloc := ⟨toL "www.", ht⟩
                      have h3 := h1.trans h2
                      rw [List.isSuffixOf_iff_suffix.mpr h3] at hsuf'
                      cases hsuf'
                  · rw [if_neg hw]
                    exact ⟨hne, hsuf'⟩

theorem refFold_inv (pd : List Char) (L : List (List Char))
    (links : List (List Char)) :
    ∀ acc, (∀ l ∈ links, l ∈ L) → acc.Nodup →
    (∀ e ∈ acc, refProp pd L e) →
    (links.foldl (refFilterStep pd) acc).Nodup ∧
    ∀ e ∈ links.foldl (refFilterStep pd) acc, refProp pd L e := by
  induction links with
  | nil => intro acc hsub hnd hP; exact ⟨hnd, hP⟩
  | cons l ls ih =>
      intro acc hsub hnd hP
      rw [List.foldl_cons]
      obtain ⟨hnd', hP'⟩ := refFilterStep_inv pd L acc l
        (hsub l (List.mem_cons_self l ls)) hnd hP
      exact ih _ (fun x hx => hsub x (List.mem_cons_of_mem l hx)) hnd' hP'

/-- C5 (amended): for every page URL and every collected candidate link
list, the normalised reference-link list is lexicographically sorted and
duplicate-free, and every element satisfies `refProp`: it is `https://`
followed by a bare host — no `/`, `?` or `#`, hence no path and no
query — that, when the page URL has a host, neither equals the page's
lower-cased host nor is a subdomain of it, and that is exactly the
lower-cased netloc of one of the candidate links with a single leading
`www.` removed when present.  (The claim's stronger "no leading `www.`"
reading fails: the source strips the prefix only once — see the
counterexample.) -/
theorem c5_reference_links_normalized (page_url : List Char)
    (links : List (List Char)) :
    (refNormalizeLinks page_url links).Pairwise (fun a b => lexLe a b = true) ∧
    (refNormalizeLinks page_url links).Nodup ∧
    ∀ e ∈ refNormalizeLinks page_url links,
      refProp (pageDomainOf page_url) links e := by
  obtain ⟨hnd, hP⟩ := refFold_inv (pageDomainOf page_url) links links []
    (fun l hl => hl) List.nodup_nil (by intro e he; simp at he)
  refine ⟨sortLex_sorted _, ?_, ?_⟩
  · exact (sortLex_perm _).nodup_iff.mpr hnd
  · intro e he
    exact hP e ((sortLex_perm _).mem_iff.mp he)

/-- C5 counterexample to the claim as stated: a link whose host is
`www.www.foo.com` yields the element `https://www.foo.com`, whose host
still has a leading `www.` — the source strips the prefix only once. -/
theorem c5_www_counterexample :
    refNormalizeLinks (toL "https://site.com/p")
      [toL "https://www.www.foo.com/x"] = [toL "https://www.foo.com"] ∧
    (toL "www.").isPrefixOf (toL "www.foo.com") = true := by
  constructor
  · decide
  · decide

theorem c5_reference_links_normalized_witness :
    refProp (pageDomainOf (toL "https://site.com/page"))
      [toL "https://External.com/x", toL "https://www.site.com/y"]
      (toL "https://external.com") :=
  (c5_reference_links_normalized (toL "https://site.com/page")
    [toL "https://External.com/x", toL "https://www.site.com/y"]).2.2
    (toL "https://external.com") (by decide)

theorem lowerChar_of_lower (c : Char) (h : c.isLower = true) :
    lowerChar c = c := by
  rw [Char.isLower] at h
  rw [Bool.and_eq_true, decide_eq_true_eq, decide_eq_true_eq] at h
  have h1 : 0x61 ≤ c.toNat := h.1
  have h2 : c.toNat ≤ 0x7a := h.2
  rw [lowerChar]
  rw [if_neg (by omega), if_neg (by omega), if_neg (by omega),
    if_neg (by omega)]

theorem mapLower_lower_id (s : List Char) (h : ∀ c ∈ s, c.isLower = true) :
    mapLower s = s := by
  induction s with
  | nil => rfl
  | cons c cs ih =>
      rw [mapLower, List.map_cons,
        lowerChar_of_lower c (h c (List.mem_cons_self c cs))]
      rw [show List.map lowerChar cs = mapLower cs from rfl,
        ih (fun d hd => h d (List.mem_cons_of_mem c hd))]

theorem idxOf_not_mem (c : Char) (a : List Char) (h : c ∉ a) :
    idxOf c a = none := by
  induction a with
  | nil => rfl
  | cons x xs ih =>
      rw [idxOf, if_neg (fun hE => h (by rw [← hE]; exact List.mem_cons_self x xs))]
      rw [ih (fun hx => h (List.mem_cons_of_mem x hx))]
      rfl

theorem idxOf_append (c : Char) (a b : List Char) (h : c ∉ a) :
    idxOf c (a ++ c :: b) = some a.length := by
  induction a with
  | nil => simp [idxOf]
  | cons x xs ih =>
      rw [List.cons_append, idxOf,
        if_neg (fun hE => h (by rw [← hE]; exact List.mem_cons_self x xs))]
      rw [ih (fun hx => h (List.mem_cons_of_mem x hx))]
      rfl

theorem splitAtChar_not_mem (c : Char) (a : List Char) (h : c ∉ a) :
    splitAtChar c a = (a, []) := by
  rw [splitAtChar, idxOf_not_mem c a h]

theorem splitAtChar_append (c : Char) (a b : List Char) (h : c ∉ a) :
    splitAtChar c (a ++ c :: b) = (a, b) := by
  rw [splitAtChar, idxOf_append c a b h]
  dsimp only
  have h1 : (a ++ c :: b).take a.length = a := List.take_left a (c :: b)
  have h2 : (a ++ c :: b).drop (a.length + 1) = b := by
    rw [show a.length + 1 = (a ++ [c]).length by simp]
    rw [show a ++ c :: b = (a ++ [c]) ++ b by simp]
    exact List.drop_left _ _
  rw [h1, h2]

theorem lower_gt20 (c : Char) (h : c.isLower = true) : 0x20 < c.toNat := by
  rw [Char.isLower] at h
  rw [Bool.and_eq_true, decide_eq_true_eq, decide_eq_true_eq] at h
  have h1 : 0x61 ≤ c.toNat := h.1
  omega

theorem lower_ne_of_toNat (c : Char) (h : c.isLower = true) (n : Nat)
    (hn : n < 0x61 ∨ 0x7a < n) : c.toNat ≠ n := by
  rw [Char.isLower] at h
  rw [Bool.and_eq_true, decide_eq_true_eq, decide_eq_true_eq] at h
  have h1 : 0x61 ≤ c.toNat := h.1
  have h2 : c.toNat ≤ 0x7a := h.2
  omega

theorem ne_char_of_toNat_ne (c d : Char) (h : c.toNat ≠ d.toNat) : c ≠ d := by
  intro hE; exact h (hE ▸ rfl)

theorem splitScheme_canonical (sch rest : List Char) (hs1 : sch ≠ [])
    (hs2 : ∀ c ∈ sch, c.isLower = true) :
    splitScheme (sch ++ ':' :: rest) = (sch, rest) := by
  have hnc : ':' ∉ sch := by
    intro hc
    exact lower_ne_of_toNat ':' (hs2 ':' hc) 0x3a (by omega) rfl
  rw [splitScheme, idxOf_append ':' sch rest hnc]
  dsimp only
  have htake : (sch ++ ':' :: rest).take sch.length = sch :=
    List.take_left sch (':' :: rest)
  have hdrop : (sch ++ ':' :: rest).drop (sch.length + 1) = rest := by
    rw [show sch.length + 1 = (sch ++ [':']).length by simp]
    rw [show sch ++ ':' :: rest = (sch ++ [':']) ++ rest by simp]
    exact List.drop_left _ _
  rw [htake, hdrop]
  rw [if_pos]
  · rw [mapLower_lower_id sch hs2]
  · refine ⟨List.length_pos.mpr hs1, ?_, ?_⟩
    · cases sch with
      | nil => exact absurd rfl hs1
      | cons s0 ss =>
          have hl := hs2 s0 (List.mem_cons_self s0 ss)
          simp only [List.headD_cons]
          rw [Char.isAlpha, hl]
          simp
    · rw [List.all_eq_true]
      intro c hc
      have hl := hs2 c hc
      rw [schemeChar, Char.isAlpha, hl]
      simp

theorem splitNetloc_canonical (net : List Char) (x : Char) (z : List Char)
    (hn2 : ∀ c ∈ net, c ≠ '/' ∧ c ≠ '?' ∧ c ≠ '#' ∧ c ≠ '[' ∧ c ≠ ']')
    (hx : netChar x = false) :
    splitNetloc ('/' :: '/' :: (net ++ x :: z)) = some (net, x :: z) := by
  have hall : ∀ c ∈ net, netChar c = true := by
    intro c hc
    obtain ⟨h1, h2, h3, -, -⟩ := hn2 c hc
    simp [netChar, h1, h2, h3]
  rw [splitNetloc]
  rw [takeWhile_append_stop netChar net x z hall hx,
    dropWhile_append_stop netChar net x z hall hx]
  rw [if_neg]
  push_neg
  constructor
  · intro hmem; exact (hn2 '[' hmem).2.2.2.1 rfl
  · intro hmem; exact (hn2 ']' hmem).2.2.2.2 rfl

theorem dropWhile_all_false (p : Char → Bool) (l : List Char)
    (h : ∀ c ∈ l, p c = false) : l.dropWhile p = l := by
  cases l with
  | nil => rfl
  | cons x xs =>
      rw [List.dropWhile_cons, if_neg]
      rw [h x (List.mem_cons_self x xs)]
      simp

theorem urlparseM_canonical (sch net path q f : List Char)
    (hs1 : sch ≠ []) (hs2 : ∀ c ∈ sch, c.isLower = true)
    (hn2 : ∀ c ∈ net, c ≠ '/' ∧ c ≠ '?' ∧ c ≠ '#' ∧ c ≠ '[' ∧ c ≠ ']' ∧
      0x20 < c.toNat)
    (hp0 : path.head? = some '/')
    (hp2 : ∀ c ∈ path, c ≠ '?' ∧ c ≠ '#' ∧ c ≠ ';' ∧ 0x20 < c.toNat)
    (hq : ∀ c ∈ q, c ≠ '#' ∧ 0x20 < c.toNat)
    (hf : ∀ c ∈ f, 0x20 < c.toNat) :
    urlparseM (sch ++ ':' :: '/' :: '/' :: (net ++ path ++
      (if q ≠ [] then '?' :: q else []) ++
      (if f ≠ [] then '#' :: f else []))) =
    some ⟨sch, net, path, [], q, f⟩ := by
  obtain ⟨p', rfl⟩ : ∃ p', path = '/' :: p' := by
    cases path with
    | nil => simp at hp0
    | cons x xs =>
        simp only [List.head?_cons, Option.some.injEq] at hp0
        exact ⟨xs, by rw [hp0]⟩
  have hqx : ∀ c ∈ (if q ≠ [] then '?' :: q else []),
      c ≠ '#' ∧ 0x20 < c.toNat := by
    by_cases hqe : q = []
    · simp [hqe]
    · rw [if_pos hqe]
      intro c hc
      rcases List.mem_cons.mp hc with rfl | hc
      · exact ⟨by decide, by decide⟩
      · exact hq c hc
  have hf' : ∀ c ∈ (if f ≠ [] then '#' :: f else []), 0x20 < c.toNat := by
    by_cases hfe : f = []
    · simp [hfe]
    · rw [if_pos hfe]
      intro c hc
      rcases List.mem_cons.mp hc with rfl | hc
      · decide
      · exact hf c hc
  have hall : ∀ c ∈ sch ++ ':' :: '/' :: '/' :: (net ++ ('/' :: p') ++
      (if q ≠ [] then '?' :: q else []) ++ (if f ≠ [] then '#' :: f else [])),
      0x20 < c.toNat := by
    intro c hc
    rcases List.mem_append.mp hc with hc | hc
    · exact lower_gt20 c (hs2 c hc)
    · rcases List.mem_cons.mp hc with rfl | hc
      · decide
      · rcases List.mem_cons.mp hc with rfl | hc
        · decide
        · rcases List.mem_cons.mp hc with rfl | hc
          · decide
          · rcases List.mem_append.mp hc with hc | hc
            · rcases List.mem_append.mp hc with hc | hc
              · rcases List.mem_append.mp hc with hc | hc
                · exact (hn2 c hc).2.2.2.2.2
                · rcases List.mem_cons.mp hc with rfl | hc
                  · decide
                  · exact (hp2 c (List.mem_cons_of_mem _ hc)).2.2.2
              · exact (hqx c hc).2
            · exact hf' c hc
  have hsplit : urlsplitM (sch ++ ':' :: '/' :: '/' :: (net ++ ('/' :: p') ++
      (if q ≠ [] then '?' :: q else []) ++
      (if f ≠ [] then '#' :: f else []))) =
      some ⟨sch, net, '/' :: p', [], q, f⟩ := by
    rw [urlsplitM]
    rw [dropWhile_all_false _ _ (by
      intro c hc
      have := hall c hc
      simp only [decide_eq_false_iff_not]
      omega)]
    rw [List.filter_eq_self.mpr (by
      intro c hc
      have h20 := hall c hc
      simp only [decide_eq_true_eq]
      refine ⟨?_, ?_, ?_⟩ <;>
        (intro hE; rw [hE] at h20; revert h20; decide))]
    have hassoc : net ++ ('/' :: p') ++
        (if q ≠ [] then '?' :: q else []) ++
        (if f ≠ [] then '#' :: f else []) =
        net ++ '/' :: (p' ++ ((if q ≠ [] then '?' :: q else []) ++
          (if f ≠ [] then '#' :: f else []))) := by
      simp [List.append_assoc]
    rw [hassoc]
    rw [splitScheme_canonical sch _ hs1 hs2]
    rw [splitNetloc_canonical net '/'
      (p' ++ ((if q ≠ [] then '?' :: q else []) ++
        (if f ≠ [] then '#' :: f else [])))
      (fun c hc => ⟨(hn2 c hc).1, (hn2 c hc).2.1, (hn2 c hc).2.2.1,
        (hn2 c hc).2.2.2.1, (hn2 c hc).2.2.2.2.1⟩) (by decide)]
    have hnotH : '#' ∉ ('/' :: p') ++ (if q ≠ [] then '?' :: q else []) := by
      intro hc
      rcases List.mem_append.mp hc with hc | hc
      · exact (hp2 '#' hc).2.1 rfl
      · exact (hqx '#' hc).1 rfl
    have hnotQ : '?' ∉ ('/' :: p') := fun hc => (hp2 '?' hc).1 rfl
    have hback : '/' :: (p' ++ ((if q ≠ [] then '?' :: q else []) ++
        (if f ≠ [] then '#' :: f else []))) =
        (('/' :: p') ++ (if q ≠ [] then '?' :: q else [])) ++
          (if f ≠ [] then '#' :: f else []) := by
      simp [List.append_assoc]
    have hsharp : splitAtChar '#'
        ((('/' :: p') ++ (if q ≠ [] then '?' :: q else [])) ++
          (if f ≠ [] then '#' :: f else [])) =
        (('/' :: p') ++ (if q ≠ [] then '?' :: q else []), f) := by
      by_cases hfe : f = []
      · rw [show (if f ≠ [] then '#' :: f else []) = [] from if_neg (by simpa using hfe),
          List.append_nil, hfe]
        exact splitAtChar_not_mem _ _ hnotH
      · rw [if_pos hfe]
        exact splitAtChar_append _ _ _ hnotH
    have hquest : splitAtChar '?'
        (('/' :: p') ++ (if q ≠ [] then '?' :: q else [])) = ('/' :: p', q) := by
      by_cases hqe : q = []
      · rw [show (if q ≠ [] then '?' :: q else []) = [] from if_neg (by simpa using hqe),
          List.append_nil, hqe]
        exact splitAtChar_not_mem _ _ hnotQ
      · rw [if_pos hqe]
        exact splitAtChar_append _ _ _ hnotQ
    dsimp only
    rw [hback, hsharp, hquest]
  rw [urlparseM, hsplit]
  rw [Option.map_some']
  rw [if_neg]
  intro hcond
  exact (hp2 ';' hcond.2).2.2.1 rfl

/-- C4 (amended): the round trip is the identity for every canonical
absolute URL — lowercase non-empty scheme, non-empty bracket-free ASCII
host (`_checknetloc` returns at once for an ASCII host, so CPython's
`urlparse` accepts the URL and the model is faithful there), path
starting with `/` — whose path contains no `/ua/` segment at all.
Inserting the Ukrainian prefix and then removing it restores the URL
character for character. -/
theorem c4_ua_roundtrip (sch net p' q f : List Char)
    (hs1 : sch ≠ []) (hs2 : ∀ c ∈ sch, c.isLower = true)
    (hn1 : net ≠ [])
    (hn2 : ∀ c ∈ net, c ≠ '/' ∧ c ≠ '?' ∧ c ≠ '#' ∧ c ≠ '[' ∧ c ≠ ']' ∧
      0x20 < c.toNat)
    (hn3 : ∀ c ∈ net, c.toNat < 0x80)
    (hp2 : ∀ c ∈ ('/' :: p'), c ≠ '?' ∧ c ≠ '#' ∧ c ≠ ';' ∧ 0x20 < c.toNat)
    (hq : ∀ c ∈ q, c ≠ '#' ∧ 0x20 < c.toNat)
    (hf : ∀ c ∈ f, 0x20 < c.toNat)
    (hua : containsSub (toL "/ua/") ('/' :: p') = false) :
    generate_russian_url (some (generate_ukrainian_url (some
      (sch ++ ':' :: '/' :: '/' :: (net ++ ('/' :: p') ++
        (if q ≠ [] then '?' :: q else []) ++
        (if f ≠ [] then '#' :: f else [])))))) =
    sch ++ ':' :: '/' :: '/' :: (net ++ ('/' :: p') ++
      (if q ≠ [] then '?' :: q else []) ++
      (if f ≠ [] then '#' :: f else [])) := by
  have hparse := urlparseM_canonical sch net ('/' :: p') q f hs1 hs2 hn2 rfl hp2 hq hf
  have hp2b : ∀ c ∈ ('/' :: 'u' :: 'a' :: '/' :: p'),
      c ≠ '?' ∧ c ≠ '#' ∧ c ≠ ';' ∧ 0x20 < c.toNat := by
    intro c hc
    rcases List.mem_cons.mp hc with rfl | hc
    · exact ⟨by decide, by decide, by decide, by decide⟩
    rcases List.mem_cons.mp hc with rfl | hc
    · exact ⟨by decide, by decide, by decide, by decide⟩
    rcases List.mem_cons.mp hc with rfl | hc
    · exact ⟨by decide, by decide, by decide, by decide⟩
    exact hp2 c hc
  have hparse2 := urlparseM_canonical sch net ('/' :: 'u' :: 'a' :: '/' :: p') q f
    hs1 hs2 hn2 rfl hp2b hq hf
  obtain ⟨a, as, rfl⟩ : ∃ a as, sch = a :: as := by
    cases sch with
    | nil => exact absurd rfl hs1
    | cons a as => exact ⟨a, as, rfl⟩
  have h1 : generate_ukrainian_url (some ((a :: as) ++ ':' :: '/' :: '/' ::
      (net ++ ('/' :: p') ++ (if q ≠ [] then '?' :: q else []) ++
       (if f ≠ [] then '#' :: f else [])))) =
      (a :: as) ++ ':' :: '/' :: '/' :: (net ++ ('/' :: 'u' :: 'a' :: '/' :: p') ++
      (if q ≠ [] then '?' :: q else []) ++ (if f ≠ [] then '#' :: f else [])) := by
    simp only [generate_ukrainian_url]
    rw [if_neg (by simp), hparse]
    dsimp only
    rw [hua]
    rw [if_neg (by simp),
      if_pos (show ('/' :: p').head? = some '/' from rfl)]
    rw [show toL "://" = [':', '/', '/'] from rfl,
      show toL "/ua" = ['/', 'u', 'a'] from rfl]
    simp [List.append_assoc]
  rw [h1]
  simp only [generate_russian_url]
  rw [if_neg (by simp), hparse2]
  dsimp only
  rw [if_pos (show (toL "/ua/").isPrefixOf ('/' :: 'u' :: 'a' :: '/' :: p') = true
    from List.isPrefixOf_iff_prefix.mpr ⟨p', rfl⟩)]
  rw [show List.drop 3 ('/' :: 'u' :: 'a' :: '/' :: p') = '/' :: p' from rfl]
  simp only [urlunparseM, urlunsplitM]
  rw [if_neg (show ¬(([] : List Char) ≠ []) by simp)]
  rw [if_pos (Or.inl hn1)]
  rw [if_neg (show ¬(('/' :: p') ≠ [] ∧ ('/' :: p').head? ≠ some '/') by simp)]
  rw [if_pos (show (a :: as) ≠ [] by simp)]
  rw [show toL "//" = ['/', '/'] from rfl]
  by_cases hqe : q = [] <;> by_cases hfe : f = [] <;>
    simp [hqe, hfe, List.append_assoc]

/-- C4, counterexample to the original claim: in
`https://apteka911.ua/ua/shop` the path `/ua/shop` carries the locale
segment only immediately after the leading slash — exactly the case the
claim admits — yet the round trip strips the segment instead of
restoring the URL. -/
theorem c4_roundtrip_counterexample :
    containsSub (toL "/ua/") ((toL "/ua/shop").drop 1) = false ∧
    urlparseM (toL "https://apteka911.ua/ua/shop") =
      some ⟨toL "https", toL "apteka911.ua", toL "/ua/shop", [], [], []⟩ ∧
    generate_russian_url (some (generate_ukrainian_url
      (some (toL "https://apteka911.ua/ua/shop")))) ≠
      toL "https://apteka911.ua/ua/shop" := by
  exact ⟨by decide, by decide, by decide⟩

/-- Witness: the amended round-trip theorem at
`https://apteka911.ua/shop`. -/
theorem c4_ua_roundtrip_witness :
    generate_russian_url (some (generate_ukrainian_url
      (some (toL "https://apteka911.ua/shop")))) =
      toL "https://apteka911.ua/shop" := by
  have h := c4_ua_roundtrip (toL "https") (toL "apteka911.ua") (toL "shop") [] []
    (by decide) (by decide) (by decide) (by decide) (by decide) (by decide)
    (by decide) (by decide) (by decide)
  have e : (toL "https") ++ ':' :: '/' :: '/' :: ((toL "apteka911.ua") ++
      ('/' :: toL "shop") ++ (if ([] : List Char) ≠ [] then '?' :: ([] : List Char) else []) ++
      (if ([] : List Char) ≠ [] then '#' :: ([] : List Char) else [])) =
      toL "https://apteka911.ua/shop" := by decide
  rw [e] at h
  exact h

theorem nbspFix_id (t : List Char) (h : ∀ c ∈ t, c.toNat ≠ 0xa0) :
    nbspFix t = t := by
  induction t with
  | nil => rfl
  | cons c rest ih =>
      simp only [nbspFix, List.map_cons]
      rw [if_neg (h c (List.mem_cons_self c rest))]
      have := ih (fun d hd => h d (List.mem_cons_of_mem c hd))
      simp only [nbspFix] at this
      rw [this]

theorem starMap_id (t : List Char) (h : ∀ c ∈ t, c ≠ '*' ∧ c ≠ '_') :
    t.map (fun c => if c = '*' ∨ c = '_' then ' ' else c) = t := by
  induction t with
  | nil => rfl
  | cons c rest ih =>
      simp only [List.map_cons]
      rw [if_neg (by
        rcases h c (List.mem_cons_self c rest) with ⟨h1, h2⟩
        rintro (rfl | rfl)
        · exact h1 rfl
        · exact h2 rfl)]
      rw [ih (fun d hd => h d (List.mem_cons_of_mem c hd))]

theorem starSub_id (prev : Option Char) (t : List Char)
    (h : ∀ c ∈ t, c ≠ '*') : starSub prev t = t := by
  induction t generalizing prev with
  | nil => rfl
  | cons c rest ih =>
      rw [starSub, if_neg (by
        rintro ⟨rfl, -⟩
        exact h '*' (List.mem_cons_self _ rest) rfl)]
      rw [ih (some c) (fun d hd => h d (List.mem_cons_of_mem c hd))]

theorem normNl_id (t : List Char) (h : ∀ c ∈ t, c ≠ '\r') : normNl t = t := by
  induction t with
  | nil => rfl
  | cons c rest ih =>
      have hc : c ≠ '\r' := h c (List.mem_cons_self c rest)
      have hr := ih (fun d hd => h d (List.mem_cons_of_mem c hd))
      rw [normNl.eq_4 c rest (fun _ hcr _ => hc hcr) (fun hcr => hc hcr), hr]

theorem removeTags_id (t : List Char) (h : ∀ c ∈ t, c ≠ '<') :
    removeTags t = t := by
  induction t with
  | nil => simp [removeTags]
  | cons c rest ih =>
      simp only [removeTags]
      rw [dif_neg (by
        rintro ⟨hc, -, -⟩
        exact h c (List.mem_cons_self c rest) hc)]
      rw [ih (fun d hd => h d (List.mem_cons_of_mem c hd))]

theorem boldSub_id (t : List Char) (h : ∀ c ∈ t, c ≠ '*' ∧ c ≠ '_') :
    boldSub t = t := by
  induction t with
  | nil => simp [boldSub]
  | cons c rest ih =>
      simp only [boldSub]
      rw [if_neg (by
        rcases h c (List.mem_cons_self c rest) with ⟨h1, h2⟩
        rintro (⟨hc, -⟩ | ⟨hc, -⟩)
        · exact h1 hc
        · exact h2 hc)]
      rw [ih (fun d hd => h d (List.mem_cons_of_mem c hd))]

theorem underscoreSub_id (t : List Char) (h : ∀ c ∈ t, c ≠ '_') :
    underscoreSub t = t := by
  induction t with
  | nil => simp [underscoreSub]
  | cons c rest ih =>
      simp only [underscoreSub]
      rw [if_neg (h c (List.mem_cons_self c rest))]
      rw [ih (fun d hd => h d (List.mem_cons_of_mem c hd))]

theorem footnoteSub_id (t : List Char) (h : ∀ c ∈ t, c ≠ '[') :
    footnoteSub t = t := by
  induction t with
  | nil => simp [footnoteSub]
  | cons c rest ih =>
      simp only [footnoteSub]
      rw [if_neg (h c (List.mem_cons_self c rest))]
      rw [ih (fun d hd => h d (List.mem_cons_of_mem c hd))]

theorem headMatch_none (s : List Char) (h : ∀ c ∈ s, c ≠ '#') :
    headMatch s = none := by
  simp only [headMatch]
  rw [if_neg]
  rintro ⟨-, hh⟩
  cases hE : s.dropWhile pySpace with
  | nil => rw [hE] at hh; simp at hh
  | cons x xs =>
      rw [hE] at hh
      simp only [List.head?_cons, Option.some.injEq] at hh
      have hx : x ∈ s := by
        have hm : x ∈ s.dropWhile pySpace := by
          rw [hE]; exact List.mem_cons_self x xs
        exact (List.dropWhile_sublist pySpace).subset hm
      exact h x hx hh

theorem headingSub_id (b : Bool) (t : List Char) (h : ∀ c ∈ t, c ≠ '#') :
    headingSub b t = t := by
  induction t generalizing b with
  | nil => cases b <;> simp [headingSub]
  | cons c rest ih =>
      have hm : headMatch (c :: rest) = none := headMatch_none _ h
      have hrest := fun d hd => h d (List.mem_cons_of_mem c hd)
      simp only [headingSub]
      cases b with
      | false =>
          simp only [Bool.false_eq_true, if_false]
          rw [ih _ hrest]
      | true =>
          simp only [if_true]
          split
          · next heq => rw [hm] at heq; cases heq
          · rw [ih _ hrest]

theorem dashSub_id (t : List Char) (h : hasRun2 isDash t = false) :
    dashSub t = t := by
  induction t with
  | nil => simp [dashSub]
  | cons c rest ih =>
      have hrest : hasRun2 isDash rest = false := by
        cases rest with
        | nil => rfl
        | cons b t' =>
            simp only [hasRun2, Bool.or_eq_false_iff] at h
            exact h.2
      simp only [dashSub]
      rw [if_neg (by
        rintro ⟨hc, ht⟩
        cases rest with
        | nil => exact ht rfl
        | cons b t' =>
            rw [List.takeWhile_cons] at ht
            by_cases hb : isDash b = true
            · simp only [hasRun2, Bool.or_eq_false_iff,
                Bool.and_eq_false_iff] at h
              rcases h.1 with h1 | h1
              · rw [hc] at h1; cases h1
              · rw [hb] at h1; cases h1
            · rw [if_neg (by simpa using hb)] at ht
              exact ht rfl)]
      rw [ih hrest]

theorem dotSub_id (t : List Char)
    (h : hasRun3 (fun d => d = '.') t = false) : dotSub t = t := by
  induction t with
  | nil => simp [dotSub]
  | cons c rest ih =>
      have hrest : hasRun3 (fun d => d = '.') rest = false := by
        cases rest with
        | nil => rfl
        | cons b t' =>
            cases t' with
            | nil => rfl
            | cons e t'' =>
                simp only [hasRun3, Bool.or_eq_false_iff] at h
                exact h.2
      simp only [dotSub]
      rw [if_neg (by
        rintro ⟨hc, ht⟩
        cases rest with
        | nil => simp at ht
        | cons b t' =>
            rw [List.takeWhile_cons] at ht
            by_cases hb : b = '.'
            · rw [if_pos (by simpa using hb)] at ht
              simp only [List.length_cons] at ht
              have ht' : 1 ≤ (t'.takeWhile (fun d => d = '.')).length := by omega
              cases t' with
              | nil => simp at ht'
              | cons e t'' =>
                  rw [List.takeWhile_cons] at ht'
                  by_cases he : e = '.'
                  · simp only [hasRun3, Bool.or_eq_false_iff,
                      Bool.and_eq_false_iff] at h
                    rcases h.1 with h1 | h1
                    · rcases h1 with h1 | h1
                      · rw [hc] at h1; simp at h1
                      · rw [hb] at h1; simp at h1
                    · rw [he] at h1; simp at h1
                  · rw [if_neg (by simpa using he)] at ht'
                    simp at ht'
            · rw [if_neg (by simpa using hb)] at ht
              simp at ht)]
      rw [ih hrest]

theorem dropWhile_wsSubGo (b : Bool) (s : List Char) :
    (wsSubGo b s).dropWhile pySpace = wsSubGo true s := by
  induction s generalizing b with
  | nil => cases b <;> rfl
  | cons c rest ih =>
      by_cases hc : pySpace c = true
      · cases b with
        | true =>
            rw [show wsSubGo true (c :: rest) = wsSubGo true rest from by
              simp [wsSubGo, hc]]
            exact ih true
        | false =>
            rw [show wsSubGo false (c :: rest) = ' ' :: wsSubGo true rest from by
              simp [wsSubGo, hc]]
            rw [List.dropWhile_cons, if_pos (by decide)]
            rw [show wsSubGo true (c :: rest) = wsSubGo true rest from by
              simp [wsSubGo, hc]]
            exact ih true
      · have hc' : pySpace c = false := Bool.eq_false_iff.mpr hc
        rw [show wsSubGo b (c :: rest) = c :: wsSubGo false rest from by
          cases b <;> simp [wsSubGo, hc']]
        rw [List.dropWhile_cons, if_neg (by simp [hc'])]
        rw [show wsSubGo true (c :: rest) = c :: wsSubGo false rest from by
          simp [wsSubGo, hc']]

theorem wsSubGo_true_nil (s : List Char) (h : pyWords s = []) :
    wsSubGo true s = [] := by
  induction s with
  | nil => rfl
  | cons c rest ih =>
      by_cases hc : pySpace c = true
      · rw [pyWords, if_pos hc] at h
        rw [show wsSubGo true (c :: rest) = wsSubGo true rest from by
          simp [wsSubGo, hc]]
        exact ih h
      · rw [pyWords, if_neg hc] at h
        cases h

theorem wsSubGo_false_split (s : List Char) :
    wsSubGo false s = s.takeWhile (fun d => !pySpace d) ++
      wsSubGo false (s.dropWhile (fun d => !pySpace d)) := by
  induction s with
  | nil => rfl
  | cons c rest ih =>
      by_cases hc : pySpace c = true
      · rw [List.takeWhile_cons, if_neg (by simp [hc]),
          List.dropWhile_cons, if_neg (by simp [hc]), List.nil_append]
      · have hc' : pySpace c = false := Bool.eq_false_iff.mpr hc
        rw [show wsSubGo false (c :: rest) = c :: wsSubGo false rest from by
          simp [wsSubGo, hc']]
        rw [List.takeWhile_cons, if_pos (by simp [hc']),
          List.dropWhile_cons, if_pos (by simp [hc']), List.cons_append]
        rw [ih]

theorem wsSubGo_false_space_head (d : Char) (dw' : List Char)
    (hd : pySpace d = true) :
    wsSubGo false (d :: dw') = ' ' :: wsSubGo true (d :: dw') := by
  simp [wsSubGo, hd]

theorem dropWhile_head_false (p : Char → Bool) (l : List Char) (x : Char)
    (xs : List Char) (h : l.dropWhile p = x :: xs) : p x = false := by
  induction l with
  | nil => cases h
  | cons y l' ih =>
      rw [List.dropWhile_cons] at h
      by_cases hy : p y = true
      · rw [if_pos hy] at h; exact ih h
      · rw [if_neg hy] at h
        cases h
        exact Bool.eq_false_iff.mpr hy

theorem stripRight_no_ws (l : List Char) (h : ∀ c ∈ l, pySpace c = false) :
    stripRight l = l := by
  simp only [stripRight]
  rw [dropWhile_all_false pySpace l.reverse
    (fun c hc => h c (List.mem_reverse.mp hc))]
  exact List.reverse_reverse l

theorem stripRight_append_space (x : List Char) :
    stripRight (x ++ [' ']) = stripRight x := by
  simp only [stripRight]
  rw [show (x ++ [' ']).reverse = ' ' :: x.reverse from by simp]
  rw [List.dropWhile_cons, if_pos (by decide)]

theorem dropWhile_append_ne (p : Char → Bool) (a b : List Char)
    (h : a.dropWhile p ≠ []) : (a ++ b).dropWhile p = a.dropWhile p ++ b := by
  induction a with
  | nil => exact absurd rfl h
  | cons x a' ih =>
      by_cases hx : p x = true
      · rw [List.dropWhile_cons, if_pos hx] at h
        rw [List.cons_append, List.dropWhile_cons, if_pos hx,
          List.dropWhile_cons, if_pos hx]
        exact ih h
      · rw [List.cons_append, List.dropWhile_cons, if_neg hx,
          List.dropWhile_cons, if_neg hx, List.cons_append]

theorem stripRight_append_of_ne (x z : List Char) (h : stripRight z ≠ []) :
    stripRight (x ++ z) = x ++ stripRight z := by
  have hz : z.reverse.dropWhile pySpace ≠ [] := by
    intro he
    simp only [stripRight, he, List.reverse_nil] at h
    exact h rfl
  simp only [stripRight, List.reverse_append]
  rw [dropWhile_append_ne pySpace z.reverse x.reverse hz]
  rw [List.reverse_append, List.reverse_reverse]

theorem spaceJoin_ne_nil (w : List Char) (ws : List (List Char))
    (hw : w ≠ []) : spaceJoin (w :: ws) ≠ [] := by
  cases ws with
  | nil => simpa [spaceJoin] using hw
  | cons v vs =>
      simp only [spaceJoin]
      intro he
      rcases List.append_eq_nil.mp he with ⟨h1, -⟩
      exact hw h1

theorem stripRight_wsSubGo (t : List Char) :
    stripRight (wsSubGo true t) = spaceJoin (pyWords t) := by
  induction t using pyWords.induct with
  | case1 => simp [pyWords, wsSubGo, stripRight, spaceJoin]
  | case2 c rest hws ih =>
      rw [show wsSubGo true (c :: rest) = wsSubGo true rest from by
        simp [wsSubGo, hws]]
      rw [pyWords, if_pos hws]
      exact ih
  | case3 c rest hws ih =>
      have hc' : pySpace c = false := Bool.eq_false_iff.mpr hws
      have htw : ∀ d ∈ rest.takeWhile (fun d => !pySpace d), pySpace d = false := by
        intro d hd
        have := List.mem_takeWhile_imp hd
        simpa using this
      rw [show wsSubGo true (c :: rest) = c :: wsSubGo false rest from by
        simp [wsSubGo, hc']]
      rw [pyWords, if_neg hws]
      rw [wsSubGo_false_split rest]
      cases hdw : rest.dropWhile (fun d => !pySpace d) with
      | nil =>
          rw [show wsSubGo false ([] : List Char) = [] from rfl, List.append_nil]
          rw [show pyWords ([] : List Char) = [] from by simp [pyWords]]
          rw [show spaceJoin [c :: rest.takeWhile (fun d => !pySpace d)] =
            c :: rest.takeWhile (fun d => !pySpace d) from rfl]
          refine stripRight_no_ws _ ?_
          intro d hd
          rcases List.mem_cons.mp hd with rfl | hd
          · exact hc'
          · exact htw d hd
      | cons d dw' =>
          have hd : pySpace d = true := by
            have := dropWhile_head_false _ rest d dw' hdw
            simpa using this
          rw [wsSubGo_false_space_head d dw' hd]
          rw [hdw] at ih
          cases hE : pyWords (d :: dw') with
          | nil =>
              rw [wsSubGo_true_nil _ hE]
              rw [← List.cons_append, stripRight_append_space]
              rw [show spaceJoin [c :: rest.takeWhile (fun d => !pySpace d)] =
                c :: rest.takeWhile (fun d => !pySpace d) from rfl]
              refine stripRight_no_ws _ ?_
              intro e he
              rcases List.mem_cons.mp he with rfl | he
              · exact hc'
              · exact htw e he
          | cons w ws =>
              have hwne : w ≠ [] := by
                have := pyWords_words (d :: dw') w
                  (by rw [hE]; exact List.mem_cons_self w ws)
                exact this.1
              have hjoin : stripRight (wsSubGo true (d :: dw')) =
                  spaceJoin (w :: ws) := by rw [ih, hE]
              have hne : stripRight (wsSubGo true (d :: dw')) ≠ [] := by
                rw [hjoin]
                exact spaceJoin_ne_nil w ws hwne
              rw [← List.cons_append,
                show (' ' :: wsSubGo true (d :: dw')) =
                  [' '] ++ wsSubGo true (d :: dw') from rfl,
                ← List.append_assoc]
              rw [stripRight_append_of_ne _ _ hne]
              rw [hjoin]
              rw [show spaceJoin ((c :: rest.takeWhile (fun d => !pySpace d)) ::
                w :: ws) = (c :: rest.takeWhile (fun d => !pySpace d)) ++
                  ' ' :: spaceJoin (w :: ws) from rfl]
              simp

theorem collapseWs_eq_join (s : List Char) :
    collapseWs s = spaceJoin (pyWords s) := by
  simp only [collapseWs, stripWs, wsSub]
  rw [dropWhile_wsSubGo false s]
  exact stripRight_wsSubGo s

theorem hasRun2_tail (p : Char → Bool) (a : Char) (t : List Char)
    (h : hasRun2 p (a :: t) = false) : hasRun2 p t = false := by
  cases t with
  | nil => rfl
  | cons b t' =>
      simp only [hasRun2, Bool.or_eq_false_iff] at h
      exact h.2

theorem hasRun2_cons_true (p : Char → Bool) (a : Char) (t : List Char)
    (h : hasRun2 p t = true) : hasRun2 p (a :: t) = true := by
  cases t with
  | nil => rw [show hasRun2 p [] = false from rfl] at h; cases h
  | cons b t' =>
      simp only [hasRun2, Bool.or_eq_true]
      exact Or.inr h

theorem hasRun2_append_right_true (p : Char → Bool) (w y : List Char)
    (h : hasRun2 p w = true) : hasRun2 p (w ++ y) = true := by
  induction w with
  | nil => rw [show hasRun2 p [] = false from rfl] at h; cases h
  | cons a w' ih =>
      cases w' with
      | nil => rw [show hasRun2 p [a] = false from rfl] at h; cases h
      | cons b w'' =>
          simp only [hasRun2, Bool.or_eq_true] at h
          rcases h with h | h
          · simp only [List.cons_append, hasRun2, Bool.or_eq_true]
            exact Or.inl h
          · have h2 := ih h
            simp only [List.cons_append] at h2 ⊢
            exact hasRun2_cons_true p a _ h2

theorem hasRun2_false_left (p : Char → Bool) (x y : List Char)
    (h : hasRun2 p (x ++ y) = false) : hasRun2 p x = false := by
  cases hE : hasRun2 p x with
  | false => rfl
  | true =>
      rw [hasRun2_append_right_true p x y hE] at h
      cases h

theorem hasRun2_false_right (p : Char → Bool) (x y : List Char)
    (h : hasRun2 p (x ++ y) = false) : hasRun2 p y = false := by
  induction x with
  | nil => exact h
  | cons a x' ih =>
      exact ih (hasRun2_tail p a _ (by rwa [List.cons_append] at h))

theorem hasRun2_sep (p : Char → Bool) (w r : List Char) (hsp : p ' ' = false)
    (hw : hasRun2 p w = false) (hr : hasRun2 p r = false) :
    hasRun2 p (w ++ ' ' :: r) = false := by
  induction w with
  | nil =>
      cases r with
      | nil => rfl
      | cons b t =>
          simp only [List.nil_append, hasRun2, hsp, Bool.false_and,
            Bool.false_or]
          exact hr
  | cons a w' ih =>
      have hw' : hasRun2 p w' = false := hasRun2_tail p a w' hw
      cases w' with
      | nil =>
          simp only [List.cons_append, List.nil_append, hasRun2, hsp,
            Bool.and_false, Bool.false_or]
          cases r with
          | nil => rfl
          | cons b t =>
              simp only [hasRun2, hsp, Bool.false_and, Bool.false_or]
              exact hr
      | cons b w'' =>
          have h1 : (p a && p b) = false := by
            simp only [hasRun2, Bool.or_eq_false_iff] at hw
            exact hw.1
          have h2 := ih hw'
          simp only [List.cons_append] at h2 ⊢
          simp only [hasRun2, Bool.or_eq_false_iff]
          exact ⟨h1, h2⟩

theorem spaceJoin_hasRun2 (p : Char → Bool) (ws : List (List Char))
    (hsp : p ' ' = false) (h : ∀ w ∈ ws, hasRun2 p w = false) :
    hasRun2 p (spaceJoin ws) = false := by
  induction ws with
  | nil => rfl
  | cons w ws' ih =>
      cases ws' with
      | nil => exact h w (List.mem_cons_self w [])
      | cons v vs =>
          rw [show spaceJoin (w :: v :: vs) =
            w ++ ' ' :: spaceJoin (v :: vs) from rfl]
          exact hasRun2_sep p w _ hsp (h w (List.mem_cons_self _ _))
            (ih (fun u hu => h u (List.mem_cons_of_mem w hu)))

theorem hasRun3_tail (p : Char → Bool) (a : Char) (t : List Char)
    (h : hasRun3 p (a :: t) = false) : hasRun3 p t = false := by
  cases t with
  | nil => rfl
  | cons b t' =>
      cases t' with
      | nil => rfl
      | cons c t'' =>
          simp only [hasRun3, Bool.or_eq_false_iff] at h
          exact h.2

theorem hasRun3_cons_true (p : Char → Bool) (a : Char) (t : List Char)
    (h : hasRun3 p t = true) : hasRun3 p (a :: t) = true := by
  cases t with
  | nil => rw [show hasRun3 p [] = false from rfl] at h; cases h
  | cons b t' =>
      cases t' with
      | nil => rw [show hasRun3 p [b] = false from rfl] at h; cases h
      | cons c t'' =>
          simp only [hasRun3, Bool.or_eq_true]
          exact Or.inr h

theorem hasRun3_append_right_true (p : Char → Bool) (w y : List Char)
    (h : hasRun3 p w = true) : hasRun3 p (w ++ y) = true := by
  induction w with
  | nil => rw [show hasRun3 p [] = false from rfl] at h; cases h
  | cons a w' ih =>
      cases w' with
      | nil => rw [show hasRun3 p [a] = false from rfl] at h; cases h
      | cons b w'' =>
          cases w'' with
          | nil => rw [show hasRun3 p [a, b] = false from rfl] at h; cases h
          | cons c w''' =>
              simp only [hasRun3, Bool.or_eq_true] at h
              rcases h with h | h
              · simp only [List.cons_append, hasRun3, Bool.or_eq_true]
                exact Or.inl h
              · have h2 := ih h
                simp only [List.cons_append] at h2 ⊢
                exact hasRun3_cons_true p a _ h2

theorem hasRun3_false_left (p : Char → Bool) (x y : List Char)
    (h : hasRun3 p (x ++ y) = false) : hasRun3 p x = false := by
  cases hE : hasRun3 p x with
  | false => rfl
  | true =>
      rw [hasRun3_append_right_true p x y hE] at h
      cases h

theorem hasRun3_false_right (p : Char → Bool) (x y : List Char)
    (h : hasRun3 p (x ++ y) = false) : hasRun3 p y = false := by
  induction x with
  | nil => exact h
  | cons a x' ih =>
      exact ih (hasRun3_tail p a _ (by rwa [List.cons_append] at h))

theorem hasRun3_sep_nil (p : Char → Bool) (r : List Char)
    (hsp : p ' ' = false) (hr : hasRun3 p r = false) :
    hasRun3 p (' ' :: r) = false := by
  cases r with
  | nil => rfl
  | cons b t =>
      cases t with
      | nil => rfl
      | cons c t' =>
          simp only [hasRun3, hsp, Bool.false_and, Bool.false_or]
          exact hr

theorem hasRun3_sep_one (p : Char → Bool) (x : Char) (r : List Char)
    (hsp : p ' ' = false) (hr : hasRun3 p r = false) :
    hasRun3 p (x :: ' ' :: r) = false := by
  cases r with
  | nil => rfl
  | cons b t =>
      simp only [hasRun3, hsp, Bool.and_false, Bool.false_and, Bool.false_or]
      exact hasRun3_sep_nil p (b :: t) hsp hr

theorem hasRun3_sep (p : Char → Bool) (w r : List Char) (hsp : p ' ' = false)
    (hw : hasRun3 p w = false) (hr : hasRun3 p r = false) :
    hasRun3 p (w ++ ' ' :: r) = false := by
  induction w with
  | nil => exact hasRun3_sep_nil p r hsp hr
  | cons a w' ih =>
      have hw' : hasRun3 p w' = false := hasRun3_tail p a w' hw
      cases w' with
      | nil => exact hasRun3_sep_one p a r hsp hr
      | cons b w'' =>
          cases w'' with
          | nil =>
              simp only [List.cons_append, List.nil_append, hasRun3, hsp,
                Bool.and_false, Bool.false_or]
              exact hasRun3_sep_one p b r hsp hr
          | cons c w''' =>
              have h1 : (p a && p b && p c) = false := by
                simp only [hasRun3, Bool.or_eq_false_iff] at hw
                exact hw.1
              have h2 := ih hw'
              simp only [List.cons_append] at h2 ⊢
              simp only [hasRun3, Bool.or_eq_false_iff]
              exact ⟨h1, h2⟩

theorem spaceJoin_hasRun3 (p : Char → Bool) (ws : List (List Char))
    (hsp : p ' ' = false) (h : ∀ w ∈ ws, hasRun3 p w = false) :
    hasRun3 p (spaceJoin ws) = false := by
  induction ws with
  | nil => rfl
  | cons w ws' ih =>
      cases ws' with
      | nil => exact h w (List.mem_cons_self w [])
      | cons v vs =>
          rw [show spaceJoin (w :: v :: vs) =
            w ++ ' ' :: spaceJoin (v :: vs) from rfl]
          exact hasRun3_sep p w _ hsp (h w (List.mem_cons_self _ _))
            (ih (fun u hu => h u (List.mem_cons_of_mem w hu)))

theorem pyWords_run2 (p : Char → Bool) (s : List Char) :
    hasRun2 p s = false → ∀ w ∈ pyWords s, hasRun2 p w = false := by
  induction s using pyWords.induct with
  | case1 => intro h w hw; simp [pyWords] at hw
  | case2 c rest hws ih =>
      intro h w hw
      rw [pyWords, if_pos hws] at hw
      exact ih (hasRun2_tail p c rest h) w hw
  | case3 c rest hws ih =>
      intro h w hw
      rw [pyWords, if_neg hws] at hw
      have hsplit : rest.takeWhile (fun d => !pySpace d) ++
          rest.dropWhile (fun d => !pySpace d) = rest :=
        List.takeWhile_append_dropWhile _ rest
      rcases List.mem_cons.mp hw with rfl | hw
      · refine hasRun2_false_left p _ (rest.dropWhile (fun d => !pySpace d)) ?_
        rw [List.cons_append, hsplit]
        exact h
      · refine ih ?_ w hw
        have hrest : hasRun2 p rest = false := hasRun2_tail p c rest h
        rw [← hsplit] at hrest
        exact hasRun2_false_right p _ _ hrest

theorem pyWords_run3 (p : Char → Bool) (s : List Char) :
    hasRun3 p s = false → ∀ w ∈ pyWords s, hasRun3 p w = false := by
  induction s using pyWords.induct with
  | case1 => intro h w hw; simp [pyWords] at hw
  | case2 c rest hws ih =>
      intro h w hw
      rw [pyWords, if_pos hws] at hw
      exact ih (hasRun3_tail p c rest h) w hw
  | case3 c rest hws ih =>
      intro h w hw
      rw [pyWords, if_neg hws] at hw
      have hsplit : rest.takeWhile (fun d => !pySpace d) ++
          rest.dropWhile (fun d => !pySpace d) = rest :=
        List.takeWhile_append_dropWhile _ rest
      rcases List.mem_cons.mp hw with rfl | hw
      · refine hasRun3_false_left p _ (rest.dropWhile (fun d => !pySpace d)) ?_
        rw [List.cons_append, hsplit]
        exact h
      · refine ih ?_ w hw
        have hrest : hasRun3 p rest = false := hasRun3_tail p c rest h
        rw [← hsplit] at hrest
        exact hasRun3_false_right p _ _ hrest

theorem pyWords_mem (s : List Char) :
    ∀ w ∈ pyWords s, ∀ c ∈ w, c ∈ s := by
  induction s using pyWords.induct with
  | case1 => intro w hw; simp [pyWords] at hw
  | case2 c rest hws ih =>
      intro w hw d hd
      rw [pyWords, if_pos hws] at hw
      exact List.mem_cons_of_mem c (ih w hw d hd)
  | case3 c rest hws ih =>
      intro w hw d hd
      rw [pyWords, if_neg hws] at hw
      rcases List.mem_cons.mp hw with rfl | hw
      · rcases List.mem_cons.mp hd with rfl | hd
        · exact List.mem_cons_self d rest
        · exact List.mem_cons_of_mem c ((List.takeWhile_sublist _).subset hd)
      · exact List.mem_cons_of_mem c
          ((List.dropWhile_sublist _).subset (ih w hw d hd))

theorem mem_spaceJoin (ws : List (List Char)) (c : Char)
    (h : c ∈ spaceJoin ws) : c = ' ' ∨ ∃ w ∈ ws, c ∈ w := by
  induction ws with
  | nil => simp [spaceJoin] at h
  | cons w ws' ih =>
      cases ws' with
      | nil => exact Or.inr ⟨w, List.mem_cons_self w [], h⟩
      | cons v vs =>
          rw [show spaceJoin (w :: v :: vs) =
            w ++ ' ' :: spaceJoin (v :: vs) from rfl] at h
          rcases List.mem_append.mp h with h | h
          · exact Or.inr ⟨w, List.mem_cons_self _ _, h⟩
          · rcases List.mem_cons.mp h with rfl | h
            · exact Or.inl rfl
            · rcases ih h with h | ⟨u, hu, hc⟩
              · exact Or.inl h
              · exact Or.inr ⟨u, List.mem_cons_of_mem w hu, hc⟩

theorem cleanCore_plain (t : List Char)
    (hch : ∀ c ∈ t, c ≠ '<' ∧ c ≠ '*' ∧ c ≠ '_' ∧ c ≠ '#' ∧ c ≠ '[' ∧
      c ≠ '\r' ∧ c.toNat ≠ 0xa0)
    (hd2 : hasRun2 isDash t = false)
    (hd3 : hasRun3 (fun d => d = '.') t = false) :
    cleanCore t = collapseWs t := by
  simp only [cleanCore]
  rw [nbspFix_id t (fun c hc => (hch c hc).2.2.2.2.2.2),
      normNl_id t (fun c hc => (hch c hc).2.2.2.2.2.1),
      removeTags_id t (fun c hc => (hch c hc).1),
      boldSub_id t (fun c hc => ⟨(hch c hc).2.1, (hch c hc).2.2.1⟩),
      starSub_id none t (fun c hc => (hch c hc).2.1),
      underscoreSub_id t (fun c hc => (hch c hc).2.2.1),
      headingSub_id true t (fun c hc => (hch c hc).2.2.2.1),
      footnoteSub_id t (fun c hc => (hch c hc).2.2.2.2.1),
      dashSub_id t hd2,
      dotSub_id t hd3,
      starMap_id t (fun c hc => ⟨(hch c hc).2.1, (hch c hc).2.2.1⟩)]

/-- C8 (amended): `clean_text_for_comparison` is idempotent on every text
containing none of the characters its markdown-rewriting passes react to
(`<`, `*`, `_`, `#`, `[`, carriage return, U+00A0), no two adjacent
dash/em-dash characters and no three adjacent dots.  The unrestricted
idempotence of the original claim fails: the footnote pass runs after the
heading pass and can expose a fresh line-start `#` that only a second
application removes. -/
theorem c8_cleaner_idempotent (t : List Char)
    (hch : ∀ c ∈ t, c ≠ '<' ∧ c ≠ '*' ∧ c ≠ '_' ∧ c ≠ '#' ∧ c ≠ '[' ∧
      c ≠ '\r' ∧ c.toNat ≠ 0xa0)
    (hd2 : hasRun2 isDash t = false)
    (hd3 : hasRun3 (fun d => d = '.') t = false) :
    clean_text_for_comparison (some (clean_text_for_comparison (some t))) =
      clean_text_for_comparison (some t) := by
  by_cases ht : t = []
  · subst ht; rfl
  · have hinner : clean_text_for_comparison (some t) =
        spaceJoin (pyWords t) := by
      rw [show clean_text_for_comparison (some t) =
        if t = [] then [] else cleanCore t from rfl]
      rw [if_neg ht, cleanCore_plain t hch hd2 hd3, collapseWs_eq_join]
    rw [hinner]
    by_cases hJ : spaceJoin (pyWords t) = []
    · rw [hJ]; rfl
    · rw [show clean_text_for_comparison (some (spaceJoin (pyWords t))) =
        if spaceJoin (pyWords t) = [] then []
        else cleanCore (spaceJoin (pyWords t)) from rfl]
      rw [if_neg hJ]
      have hchJ : ∀ c ∈ spaceJoin (pyWords t), c ≠ '<' ∧ c ≠ '*' ∧ c ≠ '_' ∧
          c ≠ '#' ∧ c ≠ '[' ∧ c ≠ '\r' ∧ c.toNat ≠ 0xa0 := by
        intro c hc
        rcases mem_spaceJoin _ c hc with rfl | ⟨w, hwmem, hcw⟩
        · exact ⟨by decide, by decide, by decide, by decide, by decide,
            by decide, by decide⟩
        · exact hch c (pyWords_mem t w hwmem c hcw)
      have hd2J : hasRun2 isDash (spaceJoin (pyWords t)) = false :=
        spaceJoin_hasRun2 isDash _ (by decide) (pyWords_run2 isDash t hd2)
      have hd3J : hasRun3 (fun d => d = '.') (spaceJoin (pyWords t)) = false :=
        spaceJoin_hasRun3 _ _ (by decide) (pyWords_run3 _ t hd3)
      rw [cleanCore_plain _ hchJ hd2J hd3J, collapseWs_eq_join]
      rw [pyWords_spaceJoin (pyWords t) (pyWords_words t)]

/-- C8, counterexample to the unrestricted claim: cleaning `[x]# abc` once
yields `# abc` — the footnote pass (step 8) runs after the heading pass
(step 7) and exposes a line-start `#` — and a second cleaning strips it to
`abc`, so one application is not a fixed point. -/
theorem c8_idempotence_counterexample :
    clean_text_for_comparison (some (clean_text_for_comparison
      (some (toL "[x]# abc")))) ≠
      clean_text_for_comparison (some (toL "[x]# abc")) := by
  have h1 : clean_text_for_comparison (some (toL "[x]# abc")) =
      toL "# abc" := by
    simp [clean_text_for_comparison, cleanCore, collapseWs, wsSub, wsSubGo,
      stripWs, stripRight, nbspFix, normNl, removeTags, boldSub, starSub,
      underscoreSub, headingSub, headMatch, footnoteSub, dashSub, dotSub,
      isDash, pySpace, pySpaceCodes, toL, findClose1, findClose2]
  have h2 : clean_text_for_comparison (some (toL "# abc")) = toL "abc" := by
    simp [clean_text_for_comparison, cleanCore, collapseWs, wsSub, wsSubGo,
      stripWs, stripRight, nbspFix, normNl, removeTags, boldSub, starSub,
      underscoreSub, headingSub, headMatch, footnoteSub, dashSub, dotSub,
      isDash, pySpace, pySpaceCodes, toL, findClose1, findClose2]
  rw [h1, h2]
  decide

/-- Witness: the amended idempotence theorem at the plain text
`анкор аудит 2024`. -/
theorem c8_cleaner_idempotent_witness :
    clean_text_for_comparison (some (clean_text_for_comparison
      (some (toL "анкор аудит 2024")))) =
      clean_text_for_comparison (some (toL "анкор аудит 2024")) :=
  c8_cleaner_idempotent (toL "анкор аудит 2024") (by decide) (by decide)
    (by decide)
